import Mathlib

/-!
# CopyHFSMeta / DeviceWrapper.c

A shallow embedding of the device-backed I/O wrapper of CopyHFSMeta
(`src/CopyHFSMeta/DeviceWrapper.c`) and the properties of it that the
specification states.

Conventions of the embedding.

* A device is the function giving the byte stored at each offset.
* `off_t` and `ssize_t` values are integers (`Int`).  The offset `start + total`
  that `writeExtent` passes to `pread` and `pwrite` is a 64-bit sum: `offsetAt`
  reduces it into `[-2 ^ 63, 2 ^ 63)`.  The sums `len - total` and `total + nread`
  are exact: `loop_reads_wellformed` shows that `total` stays between `0` and
  `len` whenever a read returns at most what it was asked for.
* `size_t` and `uint64_t` values are natural numbers reduced modulo `2 ^ 64`;
  the product `ctx.blockSize * blockCount` is an unsigned 64-bit product.
* The host system (the results of `pread`, `pwrite`, `lstat`, `open`, `ioctl`,
  `strdup`, `malloc`) is a parameter.  A call that can fail returns `none` when
  the C call returns `-1` (or `NULL`).
* A C string is the list of its characters before the terminator.
-/

namespace DeviceWrapper

/-! ## Devices and the host system seen by `writeExtent` -/

/-- One byte (`uint8_t`). -/
abbrev Byte := Fin 256

/-- Contents of a device: the byte at each offset. -/
abbrev Dev := Int → Byte

/-- Result of `pread(devp->fd, buffer, amt, off)`, as a function of the number of
reads issued before it, of `amt` and of `off`: `none` when the call returns `-1`,
`some n` when it returns `n` and has put the `n` source bytes found at `off`
into the buffer. -/
abbrev ReadOracle := Nat → Nat → Int → Option Nat

/-- Result of `pwrite(ctx->fd, buffer, nbyte, off)`, as a function of the number
of writes issued before it, of `off` and of `nbyte`: `none` when the call returns
`-1` and stores nothing, `some m` when it returns `m` and has stored the first `m`
bytes it was given. -/
abbrev WriteOracle := Nat → Int → Nat → Option Nat

/-- The `n` bytes of device `src` that start at offset `off`. -/
def readBytes (src : Dev) (off : Int) (n : Nat) : List Byte :=
  (List.range n).map fun (j : Nat) => src (off + (j : Int))

/-- Device `dst` after `data` has been stored at offset `off`. -/
def storeBytes (dst : Dev) (off : Int) (data : List Byte) : Dev :=
  fun i => if off ≤ i ∧ i < off + (data.length : Int) then data.getD (i - off).toNat 0 else dst i

/-- Effect on the destination of `pwrite(ctx->fd, buffer, nbyte, off)` whose
outcome is `res`; `data` is the first `nbyte` bytes of the buffer. -/
def pwrite (dst : Dev) (res : Option Nat) (off : Int) (data : List Byte) : Dev :=
  match res with
  | none => dst
  | some m => storeBytes dst off (data.take m)

/-! ## `writeExtent` -/

/-- The constant `bufSize = 1024 * 1024` of `writeExtent`. -/
def bufSize : Nat := 1024 * 1024

/-- The macro `MIN(a, b)`, `__a < __b ? __a : __b`, at its one use
`size_t amt = MIN(bufSize, len - total)`: `a` is a `size_t`, `b` an `off_t` that is
positive there, and the result is stored in a `size_t`. -/
def MIN (a : Nat) (b : Int) : Nat :=
  if (a : Int) < b then a else b.toNat

/-- The value of a 64-bit two's complement sum whose exact value is `x`: `x`
reduced into `[-2 ^ 63, 2 ^ 63)`. -/
def wrap64 (x : Int) : Int := (x + 2 ^ 63) % 2 ^ 64 - 2 ^ 63

/-- The `off_t` expression `start + total` that `writeExtent` passes to `pread`
and to `pwrite`. -/
def offsetAt (start total : Int) : Int := wrap64 (start + total)

/-- One `pread` issued by the copy loop. -/
structure ReadCall where
  /-- The value of `total` when the read was issued. -/
  total : Int
  /-- The number of bytes asked for (`amt`). -/
  amt : Nat
  /-- The offset read (the `off_t` value of `start + total`). -/
  off : Int
  /-- What the read returned: `none` for `-1`, `some nread` otherwise. -/
  res : Option Nat
  deriving DecidableEq

/-- Variables of the copy loop, and a record of the calls it has made. -/
structure LoopState where
  /-- The local `total`. -/
  total : Int
  /-- Contents of the destination device. -/
  dst : Dev
  /-- Every `pread` issued, in order. -/
  reads : List ReadCall
  /-- The `(offset, bytes)` of each `pwrite` issued, in order. -/
  writes : List (Int × List Byte)
  /-- The values passed to the progress callback `bp`, in order. -/
  progress : List Int

/-- What a call of `writeExtent` produced: its return value and the final state. -/
structure ExtentResult where
  /-- The value returned (`retval`). -/
  retval : Int
  /-- The loop variables and the record of calls at `done:`. -/
  st : LoopState

/-- The `pread` that the loop issues in state `st`, with its result `res`. -/
def readCall (start len : Int) (st : LoopState) (res : Option Nat) : ReadCall :=
  { total := st.total
    amt := MIN bufSize (len - st.total)
    off := offsetAt start st.total
    res := res }

/-- The rest of one iteration after `pread` has returned `nread` bytes: the
`pwrite` of these bytes at the same offset, the call `bp(nread)` and
`total += nread`. -/
def chunk (src : Dev) (wr : WriteOracle) (start len : Int) (st : LoopState) (nread : Nat) :
    LoopState :=
  let off := offsetAt start st.total
  let buffer := readBytes src off nread
  { total := st.total + (nread : Int)
    dst := pwrite st.dst (wr st.writes.length off nread) off buffer
    reads := st.reads ++ [readCall start len st (some nread)]
    writes := st.writes ++ [(off, buffer)]
    progress := st.progress ++ [(nread : Int)] }

/-- The loop `while (total < len) { ... }` of `writeExtent`, run for at most `fuel`
iterations; `none` when `fuel` iterations do not reach the end of the loop. -/
def loop (src : Dev) (rd : ReadOracle) (wr : WriteOracle) (start len : Int) :
    Nat → LoopState → Option ExtentResult
  | 0, st => if st.total < len then none else some { retval := 0, st := st }
  | fuel + 1, st =>
    if st.total < len then
      match rd st.reads.length (MIN bufSize (len - st.total)) (offsetAt start st.total) with
      | none =>
        some { retval := -1, st := { st with reads := st.reads ++ [readCall start len st none] } }
      | some nread => loop src rd wr start len fuel (chunk src wr start len st nread)
    else some { retval := 0, st := st }

/-- The state in which the loop is entered. -/
def initial (dst : Dev) : LoopState :=
  { total := 0, dst := dst, reads := [], writes := [], progress := [] }

/-- The function `writeExtent(context, devp, start, len, bp)`.  `bufferOk` tells
whether `malloc(bufSize)` returns a buffer, `src` is the source device behind
`devp->fd` and `dst` the destination device behind `ctx->fd`. -/
def writeExtent (bufferOk : Bool) (src : Dev) (rd : ReadOracle) (wr : WriteOracle)
    (start len : Int) (dst : Dev) (fuel : Nat) : Option ExtentResult :=
  if bufferOk then loop src rd wr start len fuel (initial dst)
  else some { retval := -1, st := initial dst }

/-- The function `GetProgress(context)`. -/
def GetProgress {σ : Type} (_context : σ) : Int := 0

/-- The function `SetProgress(context, progr)`: it returns nothing, so the model
returns the state of the wrapper and of its device after the call. -/
def SetProgress {σ : Type} (context : σ) (_progr : Int) : σ := context

/-- The function `noClean(ctx)`, with the state after the call. -/
def noClean {σ : Type} (ctx : σ) : Int × σ := (0, ctx)

/-! ## Assumptions on the host system used by the statements -/

/-- The contract of `pread`: a read that succeeds returns at most the `amt` bytes
it was asked for. -/
def PreadContract (rd : ReadOracle) : Prop :=
  ∀ k amt off n, rd k amt off = some n → n ≤ amt

/-- Every read of at least one byte succeeds and returns between one byte and the
number of bytes asked for (short reads allowed). -/
def ReadsSucceed (rd : ReadOracle) : Prop :=
  ∀ k amt off, 1 ≤ amt → ∃ n, rd k amt off = some n ∧ 1 ≤ n ∧ n ≤ amt

/-- Every read of at least one byte either fails or returns at least one byte. -/
def ReadsProgress (rd : ReadOracle) : Prop :=
  ∀ k amt off n, 1 ≤ amt → rd k amt off = some n → 1 ≤ n

/-- What a caller of `writeExtent` observes apart from the destination device:
the return value, the final `total`, the reads, the writes requested and the
values passed to the progress callback. -/
def observed (r : ExtentResult) : Int × Int × List ReadCall × List (Int × List Byte) × List Int :=
  (r.retval, r.st.total, r.st.reads, r.st.writes, r.st.progress)

/-- The property of a read issued by the loop of `writeExtent start len`: it asks
for `min(1048576, len - total)` bytes at the `off_t` offset `start + total`, with
`0 ≤ total < len`. -/
def ReadCall.Wellformed (start len : Int) (c : ReadCall) : Prop :=
  (c.amt : Int) = min 1048576 (len - c.total) ∧ c.off = offsetAt start c.total ∧
    0 ≤ c.total ∧ c.total < len

/-- Every write stores all the bytes it is given. -/
def StoresAll (wr : WriteOracle) : Prop :=
  ∀ k off n, wr k off n = some n

/-- The reads that the loop issues from read number `k` and `total = t` on return
the byte counts `ns`, in this order, and the read issued after them returns `-1`.
Each of these reads is issued, that is, `total < len` holds before it. -/
def ReadsThenFail (rd : ReadOracle) (start len : Int) : Nat → Int → List Nat → Prop
  | k, t, [] => t < len ∧ rd k (MIN bufSize (len - t)) (offsetAt start t) = none
  | k, t, n :: ns =>
    t < len ∧ rd k (MIN bufSize (len - t)) (offsetAt start t) = some n ∧
      ReadsThenFail rd start len (k + 1) (t + (n : Int)) ns

instance ReadsThenFail.decide (rd : ReadOracle) (start len : Int) :
    ∀ (k : Nat) (t : Int) (ns : List Nat), Decidable (ReadsThenFail rd start len k t ns)
  | k, t, [] =>
    inferInstanceAs
      (Decidable (t < len ∧ rd k (MIN bufSize (len - t)) (offsetAt start t) = none))
  | k, t, n :: ns =>
    have := ReadsThenFail.decide rd start len (k + 1) (t + (n : Int)) ns
    inferInstanceAs
      (Decidable (t < len ∧ rd k (MIN bufSize (len - t)) (offsetAt start t) = some n ∧
        ReadsThenFail rd start len (k + 1) (t + (n : Int)) ns))

/-- The writes `(offset, bytes)` that the loop issues when, from `total = t` on,
its reads return the byte counts `ns`: each carries the source bytes found at its
offset. -/
def chunks (src : Dev) (start : Int) : Int → List Nat → List (Int × List Byte)
  | _, [] => []
  | t, n :: ns =>
    (offsetAt start t, readBytes src (offsetAt start t) n) :: chunks src start (t + (n : Int)) ns

/-- Offset `i` lies in the range of one of the writes. -/
def Covered (writes : List (Int × List Byte)) (i : Int) : Prop :=
  ∃ w ∈ writes, w.1 ≤ i ∧ i < w.1 + (w.2.length : Int)

/-- A source whose reads return full chunks until read number `k`, which fails, as
do all later ones. -/
def failsAt (k : Nat) : ReadOracle := fun i amt _ => if i < k then some amt else none

/-- A source whose every read returns exactly the bytes asked for. -/
def fullReads : ReadOracle := fun _ amt _ => some amt

/-- A source whose every read returns one byte (the shortest read that advances). -/
def oneByteReads : ReadOracle := fun _ _ _ => some 1

/-- A source whose every read succeeds with zero bytes. -/
def emptyReads : ReadOracle := fun _ _ _ => some 0

/-- A destination that stores every write in full. -/
def fullWrites : WriteOracle := fun _ _ n => some n

/-- A destination whose every write fails. -/
def failingWrites : WriteOracle := fun _ _ _ => none

/-- A destination that stores only the first byte of every write. -/
def shortWrites : WriteOracle := fun _ _ _ => some 1

/-- A device filled with zero bytes. -/
def zeroDev : Dev := fun _ => 0

/-- A device with deterministic, non-constant content. -/
def patternDev : Dev := fun i => Fin.ofNat (i % 251).toNat

/-! ## `InitDeviceWrapper` -/

/-- The terminator of a C string. -/
def NUL : Char := Char.ofNat 0

/-- The function `strncmp(s1, s2, n)` of the C library, on strings given by their
characters before the terminator: the difference of the first two characters
that differ among the first `n`, and `0` when there is none before the end of
the strings. -/
def strncmp : List Char → List Char → Nat → Int
  | _, _, 0 => 0
  | s1, s2, n + 1 =>
    let c1 := s1.headD NUL
    let c2 := s2.headD NUL
    if c1 ≠ c2 then (c1.toNat : Int) - (c2.toNat : Int)
    else if c1 = NUL then 0
    else strncmp s1.tail s2.tail n

/-- The local `rawname` of `InitDeviceWrapper` once it is filled:
`sprintf(rawname, "/dev/rdisk%s", path + 9)` when `strncmp(path, "/dev/disk", 9) == 0`,
and `strcpy(rawname, path)` otherwise. -/
def rawname (path : List Char) : List Char :=
  if strncmp path "/dev/disk".toList 9 = 0 then "/dev/rdisk".toList ++ path.drop 9
  else path

/-- The size of the array `char rawname[strlen(path) + 2]`. -/
def rawnameSize (path : List Char) : Nat := path.length + 2

/-- The mask `S_IFMT` of `<sys/stat.h>`. -/
def S_IFMT : Nat := 0o170000

/-- The file type `S_IFCHR` (character special) of `<sys/stat.h>`. -/
def S_IFCHR : Nat := 0o020000

/-- The file type `S_IFBLK` (block special) of `<sys/stat.h>`. -/
def S_IFBLK : Nat := 0o060000

/-- The conversion of an unsigned 64-bit value to `off_t`. -/
def toOffT (u : Nat) : Int :=
  if u % 2 ^ 64 < 2 ^ 63 then ((u % 2 ^ 64 : Nat) : Int) else ((u % 2 ^ 64 : Nat) : Int) - 2 ^ 64

/-- The expression `ctx.blockSize * blockCount` assigned to `ctx.devSize`: the
product of a `size_t` and a `uint64_t`, converted to `off_t`. -/
def devSizeOf (blockSize blockCount : Nat) : Int :=
  toOffT ((blockSize % 2 ^ 64) * (blockCount % 2 ^ 64) % 2 ^ 64)

/-- The structure `struct DeviceWrapperContext`; a `pathname` that is `none` is a
null pointer. -/
structure DeviceWrapperContext where
  pathname : Option (List Char)
  blockSize : Nat
  devSize : Int
  fd : Int
  deriving DecidableEq

/-- The five functions of this file that a wrapper can point to. -/
inductive Operation
  | doRead
  | writeExtent
  | GetProgress
  | SetProgress
  | noClean
  deriving DecidableEq

/-- The members of `IOWrapper_t` that `InitDeviceWrapper` fills. -/
structure IOWrapper where
  context : DeviceWrapperContext
  reader : Operation
  writer : Operation
  getprog : Operation
  setprog : Operation
  cleanup : Operation
  deriving DecidableEq

/-- What the host system answers during one call of `InitDeviceWrapper`. -/
structure Host where
  /-- The call `lstat(rawname, &sb)`: `none` for `-1`, else `sb.st_mode`. -/
  lstat : List Char → Option Nat
  /-- The call `open(rawname, O_RDWR)`: `none` for `-1`, else the descriptor. -/
  openRW : List Char → Option Nat
  /-- The call `ioctl(fd, DKIOCGETBLOCKSIZE, &ctx.blockSize)`: `none` for `-1`,
  else the value stored. -/
  getBlockSize : Int → Option Nat
  /-- The call `ioctl(fd, DKIOCGETBLOCKCOUNT, &blockCount)`: `none` for `-1`,
  else the value stored. -/
  getBlockCount : Int → Option Nat
  /-- Whether `strdup(rawname)` returns a copy. -/
  strdupOk : Bool
  /-- Whether `malloc(sizeof(ctx))` returns memory. -/
  mallocContextOk : Bool
  /-- Whether `malloc(sizeof(*retval))` returns memory. -/
  mallocWrapperOk : Bool

/-- The three heap objects of `InitDeviceWrapper`. -/
inductive Mem
  | pathname
  | context
  | wrapper
  deriving DecidableEq

/-- The calls of `InitDeviceWrapper` that inspect, acquire or release something. -/
inductive Event
  /-- The call `lstat(rawname, &sb)`. -/
  | lstat (path : List Char)
  /-- The call `open(rawname, O_RDWR)` and its result. -/
  | openRW (path : List Char) (fd : Option Nat)
  /-- The call `close(fd)`. -/
  | close (fd : Int)
  /-- A `strdup` or `malloc` that returned the object. -/
  | alloc (m : Mem)
  /-- A `free` of the object (a `free` of a null pointer is not recorded). -/
  | free (m : Mem)
  deriving DecidableEq

/-- The result of `InitDeviceWrapper`: the wrapper returned (`none` for a null
pointer) and the calls made. -/
structure Outcome where
  retval : Option IOWrapper
  log : List Event

/-- The code at the label `done:` of `InitDeviceWrapper`. -/
def done (ctx : DeviceWrapperContext) (retctx : Option DeviceWrapperContext)
    (retval : Option IOWrapper) (log : List Event) : Outcome :=
  match retval with
  | some w => { retval := some w, log := log }
  | none =>
    let log := if ctx.pathname.isSome then log ++ [Event.free Mem.pathname] else log
    let log := if retctx.isSome then log ++ [Event.free Mem.context] else log
    let log := if ctx.fd ≥ 0 then log ++ [Event.close ctx.fd] else log
    { retval := none, log := log }

/-- The value of `ctx.blockSize` after
`if (ioctl(ctx.fd, DKIOCGETBLOCKSIZE, &ctx.blockSize) == -1) ctx.blockSize = 512;`
on descriptor `fd`: what the query stored, or 512 when it returned `-1`. -/
def blockSizeUsed (host : Host) (fd : Int) : Nat :=
  match host.getBlockSize fd with
  | none => 512
  | some v => v % 2 ^ 64

/-- The function `InitDeviceWrapper(path, devp)`; `size` is `devp->size`. -/
def InitDeviceWrapper (host : Host) (path : List Char) (size : Int) : Outcome :=
  let ctx : DeviceWrapperContext := { pathname := none, blockSize := 0, devSize := 0, fd := -1 }
  let log := [Event.lstat (rawname path)]
  match host.lstat (rawname path) with
  | none => done ctx none none log
  | some st_mode =>
    if st_mode &&& S_IFMT ≠ S_IFCHR then done ctx none none log
    else
      let log := log ++ [Event.openRW (rawname path) (host.openRW (rawname path))]
      match host.openRW (rawname path) with
      | none => done ctx none none log
      | some fd =>
        let ctx := { ctx with fd := (fd : Int) }
        let ctx := { ctx with blockSize := blockSizeUsed host ctx.fd }
        match host.getBlockCount ctx.fd with
        | none => done ctx none none log
        | some blockCount =>
          let ctx := { ctx with devSize := devSizeOf ctx.blockSize blockCount }
          if ctx.devSize ≠ size then done ctx none none log
          else if !host.strdupOk then done ctx none none log
          else
            let ctx := { ctx with pathname := some (rawname path) }
            let log := log ++ [Event.alloc Mem.pathname]
            if !host.mallocContextOk then done ctx none none log
            else
              let retctx := ctx
              let log := log ++ [Event.alloc Mem.context]
              if !host.mallocWrapperOk then done ctx (some retctx) none log
              else
                let log := log ++ [Event.alloc Mem.wrapper]
                done ctx (some retctx)
                  (some { context := retctx
                          reader := Operation.doRead
                          writer := Operation.writeExtent
                          getprog := Operation.GetProgress
                          setprog := Operation.SetProgress
                          cleanup := Operation.noClean }) log

/-- A host on which `path` is a character device of `blockCount` blocks of
`blockSize` bytes, opened as descriptor 3, and every allocation succeeds. -/
def charDeviceHost (blockSize blockCount : Nat) : Host :=
  { lstat := fun _ => some 0o020640
    openRW := fun _ => some 3
    getBlockSize := fun _ => some blockSize
    getBlockCount := fun _ => some blockCount
    strdupOk := true
    mallocContextOk := true
    mallocWrapperOk := true }

/-- The host `charDeviceHost` with a failing block-size query. -/
def noBlockSizeHost (blockCount : Nat) : Host :=
  { charDeviceHost 0 blockCount with getBlockSize := fun _ => none }

/-- A host on which every path is a block device node. -/
def blockDeviceHost : Host :=
  { charDeviceHost 512 8 with lstat := fun _ => some 0o060640 }

/-- The state that `GetProgress` and `SetProgress` could touch: the wrapper and
the contents of its device. -/
structure WrapperState where
  wrapper : IOWrapper
  device : Dev

/-- On a null result everything acquired has been released: each descriptor is
closed as often as it was opened (at most once), only an opened descriptor is
closed, the path copy and the context are freed as often as they were allocated,
and no wrapper was allocated. -/
def Released (rn : List Char) (log : List Event) : Prop :=
  (∀ fd : Nat, log.count (Event.close (fd : Int)) = log.count (Event.openRW rn (some fd)) ∧
      log.count (Event.close (fd : Int)) ≤ 1) ∧
    (∀ fd : Int, Event.close fd ∈ log → ∃ n : Nat, fd = (n : Int) ∧ Event.openRW rn (some n) ∈ log) ∧
    (∀ p fd, Event.openRW p fd ∈ log → p = rn) ∧
    log.count (Event.free Mem.pathname) = log.count (Event.alloc Mem.pathname) ∧
    log.count (Event.free Mem.context) = log.count (Event.alloc Mem.context) ∧
    Event.alloc Mem.wrapper ∉ log

/-- On success nothing has been released: the descriptor is open, and the path
copy, the context and the wrapper are allocated, each once. -/
def Kept (rn : List Char) (log : List Event) : Prop :=
  (∀ fd, Event.close fd ∉ log) ∧ (∀ m, Event.free m ∉ log) ∧
    (∃ fd : Nat, log.count (Event.openRW rn (some fd)) = 1) ∧
    ∀ m, log.count (Event.alloc m) = 1

/-- The failing exits of `InitDeviceWrapper`: the inspection fails, the path is
not a character device, the open fails, the block-count query fails, the sizes
differ, or one of the three allocations fails. -/
def Fails (host : Host) (path : List Char) (size : Int) : Prop :=
  host.lstat (rawname path) = none ∨
    (∃ m, host.lstat (rawname path) = some m ∧ m &&& S_IFMT ≠ S_IFCHR) ∨
    host.openRW (rawname path) = none ∨
    (∃ fd, host.openRW (rawname path) = some fd ∧ host.getBlockCount (fd : Int) = none) ∨
    (∃ fd blockCount, host.openRW (rawname path) = some fd ∧
      host.getBlockCount (fd : Int) = some blockCount ∧
      devSizeOf (blockSizeUsed host (fd : Int)) blockCount ≠ size) ∨
    host.strdupOk = false ∨ host.mallocContextOk = false ∨ host.mallocWrapperOk = false

/-! ## Basic facts -/

theorem MIN_pos {b : Int} (hb : 0 < b) : 1 ≤ MIN bufSize b := by
  unfold MIN bufSize
  split <;> omega

theorem MIN_le {b : Int} (hb : 0 < b) : (MIN bufSize b : Int) ≤ b := by
  unfold MIN bufSize
  split <;> omega

theorem MIN_eq_min {b : Int} (hb : 0 < b) : (MIN bufSize b : Int) = min 1048576 b := by
  unfold MIN bufSize
  split <;> omega

theorem readBytes_length (src : Dev) (off : Int) (n : Nat) :
    (readBytes src off n).length = n := by
  simp [readBytes]

theorem readBytes_take (src : Dev) (off : Int) (n m : Nat) :
    (readBytes src off n).take m = readBytes src off (min m n) := by
  simp [readBytes, ← List.map_take, List.take_range]

theorem storeBytes_readBytes (src dst : Dev) (off : Int) (n : Nat) (i : Int) :
    storeBytes dst off (readBytes src off n) i
      = if off ≤ i ∧ i < off + (n : Int) then src i else dst i := by
  unfold storeBytes
  rw [readBytes_length]
  by_cases h : off ≤ i ∧ i < off + (n : Int)
  · rw [if_pos h, if_pos h]
    have hlt : (i - off).toNat < n := by omega
    have hi : off + (((i - off).toNat : Nat) : Int) = i := by omega
    have hmax : off + (i - off) ⊔ 0 = i := by
      rw [max_eq_left (by omega)]; omega
    simp [readBytes, List.getD_eq_getElem?_getD, List.getElem?_map, List.getElem?_range hlt, hmax]
  · rw [if_neg h, if_neg h]

/-! ## Offsets -/

/-- Inside the range of `off_t` the 64-bit sum is the exact sum. -/
theorem offsetAt_eq {start total : Int} (hlo : -2 ^ 63 ≤ start + total)
    (hhi : start + total ≤ 2 ^ 63 - 1) : offsetAt start total = start + total := by
  unfold offsetAt wrap64
  omega

/-- The 64-bit sum always lies in the range of `off_t`. -/
theorem offsetAt_range (start total : Int) :
    -2 ^ 63 ≤ offsetAt start total ∧ offsetAt start total ≤ 2 ^ 63 - 1 := by
  unfold offsetAt wrap64
  omega

/-! ## Unfolding the loop -/

section Loop

variable (src : Dev) (rd : ReadOracle) (wr : WriteOracle) (start len : Int)

theorem loop_done (fuel : Nat) (st : LoopState) (h : ¬ st.total < len) :
    loop src rd wr start len fuel st = some { retval := 0, st := st } := by
  cases fuel <;> simp [loop, h]

theorem loop_fail (fuel : Nat) (st : LoopState) (h : st.total < len)
    (hr : rd st.reads.length (MIN bufSize (len - st.total)) (offsetAt start st.total) = none) :
    loop src rd wr start len (fuel + 1) st
      = some { retval := -1,
               st := { st with reads := st.reads ++ [readCall start len st none] } } := by
  simp [loop, h, hr]

theorem loop_step (fuel : Nat) (st : LoopState) (n : Nat) (h : st.total < len)
    (hr : rd st.reads.length (MIN bufSize (len - st.total)) (offsetAt start st.total) = some n) :
    loop src rd wr start len (fuel + 1) st
      = loop src rd wr start len fuel (chunk src wr start len st n) := by
  simp [loop, h, hr]

/-- Induction over the iterations of the loop: a property of the loop state that
every iteration keeps holds where the loop ends, and a run ends either past the
loop condition with `0` or at a failed read with `-1`. -/
theorem loop_induct (P : LoopState → Prop)
    (hstep : ∀ st n, P st → st.total < len →
      rd st.reads.length (MIN bufSize (len - st.total)) (offsetAt start st.total) = some n →
      P (chunk src wr start len st n)) :
    ∀ fuel st r, P st → loop src rd wr start len fuel st = some r →
      (r.retval = 0 ∧ P r.st ∧ ¬ r.st.total < len) ∨
      (r.retval = -1 ∧ ∃ st1, P st1 ∧ st1.total < len ∧
        rd st1.reads.length (MIN bufSize (len - st1.total)) (offsetAt start st1.total) = none ∧
        r.st = { st1 with reads := st1.reads ++ [readCall start len st1 none] }) := by
  intro fuel
  induction fuel with
  | zero =>
    intro st r hP hr
    by_cases h : st.total < len
    · simp [loop, h] at hr
    · rw [loop_done src rd wr start len 0 st h] at hr
      cases hr
      exact Or.inl ⟨rfl, hP, h⟩
  | succ fuel ih =>
    intro st r hP hr
    by_cases h : st.total < len
    · cases hrd : rd st.reads.length (MIN bufSize (len - st.total)) (offsetAt start st.total) with
      | none =>
        rw [loop_fail src rd wr start len fuel st h hrd] at hr
        cases hr
        exact Or.inr ⟨rfl, st, hP, h, hrd, rfl⟩
      | some n =>
        rw [loop_step src rd wr start len fuel st n h hrd] at hr
        exact ih _ r (hstep st n hP h hrd) hr
    · rw [loop_done src rd wr start len (fuel + 1) st h] at hr
      cases hr
      exact Or.inl ⟨rfl, hP, h⟩

/-- A write that stores everything puts the source bytes of the chunk at the
offset the chunk was read from. -/
theorem chunk_dst_stored (hwr : StoresAll wr) (st : LoopState) (n : Nat) (i : Int) :
    (chunk src wr start len st n).dst i
      = if offsetAt start st.total ≤ i ∧ i < offsetAt start st.total + (n : Int) then src i
        else st.dst i := by
  simp only [chunk, hwr _ _ _, pwrite, readBytes_take, Nat.min_self]
  exact storeBytes_readBytes src st.dst (offsetAt start st.total) n i

/-- Whatever the write returns, it touches no byte outside the chunk. -/
theorem chunk_dst_outside (st : LoopState) (n : Nat) (i : Int)
    (h : ¬ (offsetAt start st.total ≤ i ∧ i < offsetAt start st.total + (n : Int))) :
    (chunk src wr start len st n).dst i = st.dst i := by
  simp only [chunk, pwrite]
  cases wr st.writes.length (offsetAt start st.total) n with
  | none => rfl
  | some m =>
    simp only [storeBytes, List.length_take, readBytes_length]
    rw [if_neg]
    omega

/-- With reads that always advance, the loop started with `total ≤ len` ends with
`0` after `len - total` iterations at most, whatever the offsets and the writes
are. -/
theorem loop_finishes (hrd : ReadsSucceed rd) :
    ∀ fuel st, st.total ≤ len → (len - st.total).toNat ≤ fuel →
      ∃ r, loop src rd wr start len fuel st = some r ∧ r.retval = 0 ∧ r.st.total = len ∧
        r.st.progress.sum = st.progress.sum + (len - st.total) := by
  intro fuel
  induction fuel with
  | zero =>
    intro st hle hfuel
    have h : ¬ st.total < len := by omega
    exact ⟨_, loop_done src rd wr start len 0 st h, rfl, by simp only; omega, by simp only; omega⟩
  | succ fuel ih =>
    intro st hle hfuel
    by_cases h : st.total < len
    · obtain ⟨n, hn, h1, h2⟩ :=
        hrd st.reads.length (MIN bufSize (len - st.total)) (offsetAt start st.total)
          (MIN_pos (by omega))
      have hmin := MIN_le (b := len - st.total) (by omega)
      have hle2 : (chunk src wr start len st n).total ≤ len := by
        simp only [chunk]; omega
      have hfuel2 : (len - (chunk src wr start len st n).total).toNat ≤ fuel := by
        simp only [chunk]; omega
      obtain ⟨r, hr, hret, htot, hsum⟩ := ih _ hle2 hfuel2
      rw [loop_step src rd wr start len fuel st n h hn]
      refine ⟨r, hr, hret, htot, ?_⟩
      rw [hsum]
      simp only [chunk, List.sum_append, List.sum_cons, List.sum_nil]
      omega
    · exact ⟨_, loop_done src rd wr start len (fuel + 1) st h, rfl, by simp only; omega,
        by simp only; omega⟩

/-- With reads that always advance and writes that store everything, for an
extent inside the range of `off_t`, the loop started with `0 ≤ total ≤ len` ends
with `0` after copying the rest of the extent. -/
theorem loop_copies (hrd : ReadsSucceed rd) (hwr : StoresAll wr)
    (hlo : -2 ^ 63 ≤ start) (hhi : start + len ≤ 2 ^ 63 - 1) :
    ∀ fuel st, 0 ≤ st.total → st.total ≤ len → (len - st.total).toNat ≤ fuel →
      ∃ r, loop src rd wr start len fuel st = some r ∧ r.retval = 0 ∧ r.st.total = len ∧
        r.st.progress.sum = st.progress.sum + (len - st.total) ∧
        ∀ i, r.st.dst i
          = if start + st.total ≤ i ∧ i < start + len then src i else st.dst i := by
  intro fuel
  induction fuel with
  | zero =>
    intro st h0 hle hfuel
    have h : ¬ st.total < len := by omega
    refine ⟨_, loop_done src rd wr start len 0 st h, rfl, by simp only; omega, by simp only; omega, ?_⟩
    intro i
    rw [if_neg (by omega)]
  | succ fuel ih =>
    intro st h0 hle hfuel
    by_cases h : st.total < len
    · obtain ⟨n, hn, h1, h2⟩ :=
        hrd st.reads.length (MIN bufSize (len - st.total)) (offsetAt start st.total)
          (MIN_pos (by omega))
      have hmin := MIN_le (b := len - st.total) (by omega)
      have hc : (chunk src wr start len st n).total = st.total + (n : Int) := rfl
      obtain ⟨r, hr, hret, htot, hsum, hdst⟩ :=
        ih (chunk src wr start len st n) (by rw [hc]; omega) (by rw [hc]; omega)
          (by rw [hc]; omega)
      rw [loop_step src rd wr start len fuel st n h hn]
      refine ⟨r, hr, hret, htot, ?_, ?_⟩
      · rw [hsum]
        simp only [chunk, List.sum_append, List.sum_cons, List.sum_nil]
        omega
      · intro i
        rw [hdst i, chunk_dst_stored src wr start len hwr, hc,
          @offsetAt_eq start st.total (by omega) (by omega)]
        split_ifs <;> first | rfl | omega
    · refine ⟨_, loop_done src rd wr start len (fuel + 1) st h, rfl, by simp only; omega,
        by simp only; omega, ?_⟩
      intro i
      rw [if_neg (by omega)]

theorem chunks_length (t : Int) (ns : List Nat) :
    (chunks src start t ns).length = ns.length := by
  induction ns generalizing t with
  | nil => rfl
  | cons n ns ih => simp [chunks, ih]

/-- Each write of `chunks` carries the source bytes found at its offset. -/
theorem chunks_data (t : Int) (ns : List Nat) :
    ∀ w ∈ chunks src start t ns, w.2 = readBytes src w.1 w.2.length := by
  induction ns generalizing t with
  | nil => intro w hw; simp [chunks] at hw
  | cons n ns ih =>
    intro w hw
    simp only [chunks, List.mem_cons] at hw
    rcases hw with rfl | hw
    · simp only [readBytes_length]
    · exact ih _ w hw

/-- Inside the range of `off_t` the writes of `chunks` lie one after the other
from `start + t` on. -/
theorem chunks_bounds (t : Int) (ns : List Nat) (hlo : -2 ^ 63 ≤ start + t) (ht : 0 ≤ t)
    (hhi : start + t + ((ns.sum : Nat) : Int) ≤ 2 ^ 63 - 1) :
    ∀ w ∈ chunks src start t ns,
      start + t ≤ w.1 ∧ w.1 + (w.2.length : Int) ≤ start + t + ((ns.sum : Nat) : Int) := by
  induction ns generalizing t with
  | nil => intro w hw; simp [chunks] at hw
  | cons n ns ih =>
    intro w hw
    simp only [List.sum_cons, Nat.cast_add] at hhi
    simp only [chunks, List.mem_cons] at hw
    rcases hw with rfl | hw
    · simp only [readBytes_length, List.sum_cons, Nat.cast_add]
      rw [offsetAt_eq (by omega) (by omega)]
      omega
    · have := ih (t + (n : Int)) (by omega) (by omega) (by omega) w hw
      simp only [List.sum_cons, Nat.cast_add]
      omega

/-- Inside the range of `off_t` the writes of `chunks` cover exactly the offsets
from `start + t` to `start + t + sum ns`. -/
theorem chunks_cover (t : Int) (ns : List Nat) (hlo : -2 ^ 63 ≤ start + t) (ht : 0 ≤ t)
    (hhi : start + t + ((ns.sum : Nat) : Int) ≤ 2 ^ 63 - 1) (i : Int) :
    Covered (chunks src start t ns) i
      ↔ (start + t ≤ i ∧ i < start + t + ((ns.sum : Nat) : Int)) := by
  induction ns generalizing t with
  | nil =>
    simp only [Covered, chunks, List.not_mem_nil, false_and, exists_false, List.sum_nil,
      Nat.cast_zero, add_zero, false_iff]
    omega
  | cons n ns ih =>
    simp only [List.sum_cons, Nat.cast_add] at hhi
    have ih2 := ih (t + (n : Int)) (by omega) (by omega) (by omega)
    have hoff : offsetAt start t = start + t := offsetAt_eq (by omega) (by omega)
    simp only [Covered, chunks, List.mem_cons, exists_eq_or_imp, readBytes_length, hoff,
      List.sum_cons, Nat.cast_add]
    simp only [Covered] at ih2
    rw [ih2]
    omega

/-- The reads that succeed before the failing one stay below `len`. -/
theorem ReadsThenFail_sum_lt :
    ∀ (ns : List Nat) (k : Nat) (t : Int), ReadsThenFail rd start len k t ns →
      t + ((ns.sum : Nat) : Int) < len := by
  intro ns
  induction ns with
  | nil => intro k t h; simpa using h.1
  | cons n ns ih =>
    intro k t h
    have := ih (k + 1) (t + (n : Int)) h.2.2
    simp only [List.sum_cons, Nat.cast_add]
    omega

/-- When the next reads return `ns` and the one after them fails, the loop ends
with `-1` after exactly these chunks. -/
theorem loop_reads_then_fail :
    ∀ (ns : List Nat) (st : LoopState) (fuel : Nat),
      ReadsThenFail rd start len st.reads.length st.total ns → ns.length < fuel →
      ∃ r, loop src rd wr start len fuel st = some r ∧ r.retval = -1 ∧
        r.st.total = st.total + ((ns.sum : Nat) : Int) ∧
        r.st.progress = st.progress ++ ns.map (fun n => (n : Int)) ∧
        r.st.writes = st.writes ++ chunks src start st.total ns ∧
        r.st.reads.length = st.reads.length + ns.length + 1 ∧
        r.st.reads.getLast? = some (readCall start len r.st none) ∧
        (∀ i, ¬ Covered (chunks src start st.total ns) i → r.st.dst i = st.dst i) ∧
        (StoresAll wr → ∀ i, Covered (chunks src start st.total ns) i → r.st.dst i = src i) := by
  intro ns
  induction ns with
  | nil =>
    intro st fuel h hfuel
    obtain ⟨hlt, hnone⟩ := h
    obtain ⟨fuel, rfl⟩ : ∃ f, fuel = f + 1 := ⟨fuel - 1, by simp at hfuel; omega⟩
    refine ⟨_, loop_fail src rd wr start len fuel st hlt hnone, rfl, by simp, by simp,
      by simp [chunks], by simp, by simp [readCall], fun i _ => rfl, ?_⟩
    intro _ i hi
    simp [Covered, chunks] at hi
  | cons n ns ih =>
    intro st fuel h hfuel
    obtain ⟨hlt, hsome, hrest⟩ := h
    obtain ⟨fuel, rfl⟩ : ∃ f, fuel = f + 1 := ⟨fuel - 1, by simp at hfuel; omega⟩
    have hlen : (chunk src wr start len st n).reads.length = st.reads.length + 1 := by
      simp [chunk]
    have htot : (chunk src wr start len st n).total = st.total + (n : Int) := rfl
    have hrest2 : ReadsThenFail rd start len (chunk src wr start len st n).reads.length
        (chunk src wr start len st n).total ns := by
      rw [hlen, htot]; exact hrest
    obtain ⟨r, hr, hret, ht, hp, hw, hrl, hlast, hout, hin⟩ :=
      ih (chunk src wr start len st n) fuel hrest2 (by simp at hfuel; omega)
    rw [htot] at hout hin
    have hcov : ∀ i, Covered (chunks src start st.total (n :: ns)) i ↔
        ((offsetAt start st.total ≤ i ∧ i < offsetAt start st.total + (n : Int)) ∨
          Covered (chunks src start (st.total + (n : Int)) ns) i) := by
      intro i
      simp [Covered, chunks, readBytes_length]
    rw [loop_step src rd wr start len fuel st n hlt hsome]
    refine ⟨r, hr, hret, ?_, ?_, ?_, ?_, hlast, ?_, ?_⟩
    · rw [ht, htot]; simp only [List.sum_cons, Nat.cast_add]; omega
    · rw [hp]; simp [chunk]
    · rw [hw, htot]; simp [chunk, chunks]
    · rw [hrl, hlen]; simp only [List.length_cons]; omega
    · intro i hi
      rw [hcov i] at hi
      rw [hout i (fun hc => hi (Or.inr hc))]
      exact chunk_dst_outside src wr start len st n i (fun hc => hi (Or.inl hc))
    · intro hwr i hi
      rw [hcov i] at hi
      by_cases hc : Covered (chunks src start (st.total + (n : Int)) ns) i
      · exact hin hwr i hc
      · rw [hout i hc, chunk_dst_stored src wr start len hwr, if_pos]
        rcases hi with hi | hi
        · exact hi
        · exact absurd hi hc

/-- The results of the writes do not influence anything but the destination
device. -/
theorem loop_write_independent (wr1 wr2 : WriteOracle) :
    ∀ (fuel : Nat) (st1 st2 : LoopState), st1.total = st2.total → st1.reads = st2.reads →
      st1.writes = st2.writes → st1.progress = st2.progress →
      (loop src rd wr1 start len fuel st1).map observed
        = (loop src rd wr2 start len fuel st2).map observed := by
  intro fuel
  induction fuel with
  | zero =>
    intro st1 st2 ht hr hw hp
    by_cases h : st1.total < len
    · have h2 : st2.total < len := ht ▸ h
      simp [loop, h, h2]
    · have h2 : ¬ st2.total < len := ht ▸ h
      simp [loop, h, h2, observed, ht, hr, hw, hp]
  | succ fuel ih =>
    intro st1 st2 ht hr hw hp
    by_cases h : st1.total < len
    · have h2 : st2.total < len := ht ▸ h
      cases hrd : rd st1.reads.length (MIN bufSize (len - st1.total))
          (offsetAt start st1.total) with
      | none =>
        have hrd2 := hrd
        rw [hr, ht] at hrd2
        rw [loop_fail src rd wr1 start len fuel st1 h hrd,
          loop_fail src rd wr2 start len fuel st2 h2 hrd2]
        simp [observed, readCall, ht, hr, hw, hp]
      | some n =>
        have hrd2 := hrd
        rw [hr, ht] at hrd2
        rw [loop_step src rd wr1 start len fuel st1 n h hrd,
          loop_step src rd wr2 start len fuel st2 n h2 hrd2]
        apply ih
        · simp [chunk, ht]
        · simp [chunk, readCall, ht, hr]
        · simp [chunk, ht, hw]
        · simp [chunk, hp]
    · have h2 : ¬ st2.total < len := ht ▸ h
      rw [loop_done src rd wr1 start len _ st1 h, loop_done src rd wr2 start len _ st2 h2]
      simp [observed, ht, hr, hw, hp]

/-- When every write fails the destination is left as it was. -/
theorem loop_failingWrites_dst :
    ∀ (fuel : Nat) (st : LoopState) (r : ExtentResult),
      loop src rd failingWrites start len fuel st = some r → r.st.dst = st.dst := by
  intro fuel st r hr
  rcases loop_induct src rd failingWrites start len (fun s => s.dst = st.dst)
      (fun s n hs _ _ => by simpa [chunk, pwrite, failingWrites] using hs) fuel st r rfl hr
    with ⟨_, h, _⟩ | ⟨_, st1, h, _, _, hst⟩
  · exact h
  · rw [hst]; exact h

/-- Every read recorded by the loop has the form the loop gives it, whatever the
reads return. -/
theorem loop_requests :
    ∀ (fuel : Nat) (st : LoopState) (r : ExtentResult),
      (∀ c ∈ st.reads, c.Wellformed start len) → 0 ≤ st.total →
      loop src rd wr start len fuel st = some r →
      (∀ c ∈ r.st.reads, c.Wellformed start len) ∧ 0 ≤ r.st.total := by
  intro fuel st r hreads h0 hr
  have key := loop_induct src rd wr start len
    (fun s => (∀ c ∈ s.reads, c.Wellformed start len) ∧ 0 ≤ s.total)
    (by
      intro s n ⟨hs, hs0⟩ hlt _
      refine ⟨?_, by simp only [chunk]; omega⟩
      intro c hcmem
      simp only [chunk, List.mem_append, List.mem_singleton] at hcmem
      rcases hcmem with hcmem | rfl
      · exact hs c hcmem
      · exact ⟨MIN_eq_min (by omega), rfl, hs0, hlt⟩)
    fuel st r ⟨hreads, h0⟩ hr
  rcases key with ⟨_, h, _⟩ | ⟨_, st1, ⟨hs, hs0⟩, hlt, _, hst⟩
  · exact h
  · rw [hst]
    refine ⟨?_, hs0⟩
    intro c hcmem
    simp only [List.mem_append, List.mem_singleton] at hcmem
    rcases hcmem with hcmem | rfl
    · exact hs c hcmem
    · exact ⟨MIN_eq_min (by omega), rfl, hs0, hlt⟩

/-- Every read recorded by the loop has the form the loop gives it, and `total`
stays between `0` and `len`. -/
theorem loop_reads_wellformed (hc : PreadContract rd) :
    ∀ (fuel : Nat) (st : LoopState) (r : ExtentResult),
      (∀ c ∈ st.reads, c.Wellformed start len ∧ ∀ n, c.res = some n → c.total + (n : Int) ≤ len) →
      0 ≤ st.total → st.total ≤ max len 0 →
      loop src rd wr start len fuel st = some r →
      (∀ c ∈ r.st.reads, c.Wellformed start len ∧ ∀ n, c.res = some n → c.total + (n : Int) ≤ len) ∧
        0 ≤ r.st.total ∧ r.st.total ≤ max len 0 := by
  intro fuel st r hreads h0 hmax hr
  have key := loop_induct src rd wr start len
    (fun s => (∀ c ∈ s.reads, c.Wellformed start len ∧
        ∀ n, c.res = some n → c.total + (n : Int) ≤ len) ∧ 0 ≤ s.total ∧ s.total ≤ max len 0)
    (by
      intro s n ⟨hs, hs0, _⟩ hlt hrd
      have hn := hc _ _ _ _ hrd
      have hmin := MIN_le (b := len - s.total) (by omega)
      have hle : s.total + (n : Int) ≤ len := by omega
      refine ⟨?_, by simp only [chunk]; omega, by simp only [chunk, le_max_iff]; omega⟩
      intro c hcmem
      simp only [chunk, List.mem_append, List.mem_singleton] at hcmem
      rcases hcmem with hcmem | rfl
      · exact hs c hcmem
      · refine ⟨⟨MIN_eq_min (by omega), rfl, hs0, hlt⟩, ?_⟩
        intro m hm
        simp only [readCall, Option.some.injEq] at hm
        subst hm
        exact hle)
    fuel st r ⟨hreads, h0, hmax⟩ hr
  rcases key with ⟨_, h, _⟩ | ⟨_, st1, ⟨hs, hs0, hsmax⟩, hlt, _, hst⟩
  · exact h
  · rw [hst]
    refine ⟨?_, hs0, hsmax⟩
    intro c hcmem
    simp only [List.mem_append, List.mem_singleton] at hcmem
    rcases hcmem with hcmem | rfl
    · exact hs c hcmem
    · exact ⟨⟨MIN_eq_min (by omega), rfl, hs0, hlt⟩, fun m hm => by simp [readCall] at hm⟩

/-- When every read fails or advances, `len - total` iterations are enough for the
loop to end, and it issues at most that many reads. -/
theorem loop_terminates (hp : ReadsProgress rd) :
    ∀ (fuel : Nat) (st : LoopState), (len - st.total).toNat ≤ fuel →
      ∃ r, loop src rd wr start len fuel st = some r ∧
        r.st.reads.length ≤ st.reads.length + (len - st.total).toNat := by
  intro fuel
  induction fuel with
  | zero =>
    intro st hfuel
    exact ⟨_, loop_done src rd wr start len 0 st (by omega), by simp⟩
  | succ fuel ih =>
    intro st hfuel
    by_cases h : st.total < len
    · cases hrd : rd st.reads.length (MIN bufSize (len - st.total)) (offsetAt start st.total) with
      | none =>
        refine ⟨_, loop_fail src rd wr start len fuel st h hrd, ?_⟩
        simp only [List.length_append, List.length_singleton]
        omega
      | some n =>
        have hn := hp _ _ _ _ (MIN_pos (by omega)) hrd
        have htot : (chunk src wr start len st n).total = st.total + (n : Int) := rfl
        have hlen : (chunk src wr start len st n).reads.length = st.reads.length + 1 := by
          simp [chunk]
        obtain ⟨r, hr, hle⟩ := ih (chunk src wr start len st n) (by rw [htot]; omega)
        rw [loop_step src rd wr start len fuel st n h hrd]
        refine ⟨r, hr, ?_⟩
        rw [hlen, htot] at hle
        omega
    · exact ⟨_, loop_done src rd wr start len _ st h, by simp⟩

/-- A read that returns zero bytes leaves `total`, and with it the next read
request, as they were. -/
theorem chunk_zero (st : LoopState) (res : Option Nat) :
    (chunk src wr start len st 0).total = st.total ∧
      (readCall start len (chunk src wr start len st 0) res).amt = (readCall start len st res).amt ∧
      (readCall start len (chunk src wr start len st 0) res).off = (readCall start len st res).off := by
  simp [chunk, readCall]

/-- When the read at the current offset keeps returning zero bytes, no amount of
fuel lets the loop end. -/
theorem loop_stuck :
    ∀ (fuel : Nat) (st : LoopState), st.total < len →
      (∀ k, rd k (MIN bufSize (len - st.total)) (offsetAt start st.total) = some 0) →
      loop src rd wr start len fuel st = none := by
  intro fuel
  induction fuel with
  | zero => intro st h _; simp [loop, h]
  | succ fuel ih =>
    intro st h hz
    rw [loop_step src rd wr start len fuel st 0 h (hz _)]
    have htot : (chunk src wr start len st 0).total = st.total := by simp [chunk]
    exact ih _ (by rw [htot]; exact h) (by rw [htot]; exact hz)

end Loop

/-! ## Runs on small inputs -/

theorem writeExtent_run_full_reads :
    (writeExtent true patternDev fullReads fullWrites 2 3 zeroDev 1).map
      (fun r => (r.retval, r.st.progress, r.st.dst 1, r.st.dst 2, r.st.dst 4, r.st.dst 5))
        = some (0, [3], 0, 2, 4, 0) := by
  decide

theorem writeExtent_run_short_reads :
    (writeExtent true patternDev oneByteReads fullWrites 2 3 zeroDev 3).map
      (fun r => (r.retval, r.st.progress, r.st.dst 1, r.st.dst 2, r.st.dst 4, r.st.dst 5))
        = some (0, [1, 1, 1], 0, 2, 4, 0) := by
  decide

theorem writeExtent_run_out_of_fuel :
    (writeExtent true patternDev oneByteReads fullWrites 2 3 zeroDev 2).isNone = true := by
  decide

theorem writeExtent_run_read_failure :
    (writeExtent true patternDev (fun k _ _ => if k < 2 then some 1 else none) fullWrites 2 5
        zeroDev 3).map
      (fun r => (r.retval, r.st.progress, r.st.writes.map Prod.fst, r.st.dst 2, r.st.dst 3,
        r.st.dst 4)) = some (-1, [1, 1], [2, 3], 2, 3, 0) := by
  decide

theorem InitDeviceWrapper_run_success :
    (InitDeviceWrapper (charDeviceHost 512 8) "/dev/disk5".toList 4096).retval.map
        (fun w => (w.context.devSize, w.context.pathname, w.context.fd))
      = some (4096, some "/dev/rdisk5".toList, 3) ∧
    (InitDeviceWrapper (charDeviceHost 512 8) "/dev/disk5".toList 4096).log
      = [Event.lstat "/dev/rdisk5".toList, Event.openRW "/dev/rdisk5".toList (some 3),
         Event.alloc Mem.pathname, Event.alloc Mem.context, Event.alloc Mem.wrapper] := by
  decide

theorem InitDeviceWrapper_run_size_mismatch :
    (InitDeviceWrapper (charDeviceHost 512 8) "/dev/disk5".toList 4097).retval = none ∧
    (InitDeviceWrapper (charDeviceHost 512 8) "/dev/disk5".toList 4097).log
      = [Event.lstat "/dev/rdisk5".toList, Event.openRW "/dev/rdisk5".toList (some 3),
         Event.close 3] := by
  decide

/-! ## Facts about the sample hosts -/

theorem fullReads_succeed : ReadsSucceed fullReads :=
  fun _ amt _ h => ⟨amt, rfl, h, le_refl _⟩

theorem fullReads_contract : PreadContract fullReads := by
  intro k amt off n h
  simp only [fullReads, Option.some.injEq] at h
  omega

theorem fullReads_progress : ReadsProgress fullReads := by
  intro k amt off n hamt h
  simp only [fullReads, Option.some.injEq] at h
  omega

theorem fullWrites_storesAll : StoresAll fullWrites :=
  fun _ _ _ => rfl

theorem oneByteReads_succeed : ReadsSucceed oneByteReads :=
  fun _ _ _ h => ⟨1, rfl, le_refl _, h⟩

/-! ## `writeExtent`: the statements of the specification -/

/-- C1, as stated, fails in two cases.  When the chunk buffer cannot be allocated:
with the extent `start = 0`, `len = 3 * 1048576 + 123`, a source whose reads all
succeed in full and a destination that stores every write, `writeExtent` returns
`-1`, leaves the destination byte at offset 1 different from the source byte, and
calls the progress callback with nothing (sum `0`, not `len`).  When the extent
does not fit in the range of `off_t`: with `start = 2 ^ 63 - 2`, `len = 4` and
reads of one byte, the third chunk is read and written at offset `-2 ^ 63`, so the
destination byte at `-2 ^ 63`, outside the extent, changes from 0 to 91, and the
byte at `2 ^ 63`, inside it, stays 0 where the source has 160. -/
theorem writeExtent_outside_assumptions :
    (ReadsSucceed fullReads ∧ StoresAll fullWrites ∧
      (writeExtent false patternDev fullReads fullWrites 0 (3 * 1048576 + 123) zeroDev
          3145851).map
        (fun r => (r.retval, r.st.progress.sum, r.st.dst 1, patternDev 1))
          = some (-1, 0, 0, 1)) ∧
    (ReadsSucceed oneByteReads ∧ (0 : Int) ≤ 2 ^ 63 - 2 ∧ (0 : Int) ≤ 4 ∧
      (writeExtent true patternDev oneByteReads fullWrites (2 ^ 63 - 2) 4 zeroDev 4).map
        (fun r => (r.retval, r.st.dst (-2 ^ 63), zeroDev (-2 ^ 63), r.st.dst (2 ^ 63),
          patternDev (2 ^ 63))) = some (0, 91, 0, 0, 160)) :=
  ⟨⟨fullReads_succeed, fullWrites_storesAll, by decide⟩,
   ⟨oneByteReads_succeed, by decide, by decide, by decide⟩⟩

/-- C1, amended: when the chunk buffer is allocated, for every `start ≥ 0` and
`len ≥ 0` with `start + len ≤ 2 ^ 63 - 1` (the extent lies in the range of
`off_t`), every source whose reads of `amt ≥ 1` bytes all succeed with a count
`1 ≤ n ≤ amt` (short reads allowed) and the source bytes at the offset read, and
every destination whose writes store all they are given: `writeExtent` returns
(within `len` iterations) the value `0`, the destination bytes of
`[start, start + len)` equal the source bytes at the same offsets, every other
destination byte is unchanged, and the values passed to the progress callback sum
to `len`. -/
theorem writeExtent_copies_extent (src : Dev) (rd : ReadOracle) (wr : WriteOracle)
    (start len : Int) (dst : Dev) (fuel : Nat)
    (hrd : ReadsSucceed rd) (hwr : StoresAll wr) (hstart : 0 ≤ start) (hlen : 0 ≤ len)
    (hrange : start + len ≤ 2 ^ 63 - 1) (hfuel : len.toNat ≤ fuel) :
    ∃ r, writeExtent true src rd wr start len dst fuel = some r ∧ r.retval = 0 ∧
      (∀ i, start ≤ i → i < start + len → r.st.dst i = src i) ∧
      (∀ i, ¬ (start ≤ i ∧ i < start + len) → r.st.dst i = dst i) ∧
      r.st.progress.sum = len := by
  obtain ⟨r, hr, hret, _, hsum, hdst⟩ :=
    loop_copies src rd wr start len hrd hwr (by omega) hrange fuel (initial dst)
      (by simp [initial]) (by simpa [initial] using hlen) (by simpa [initial] using hfuel)
  refine ⟨r, by simpa [writeExtent] using hr, hret, ?_, ?_, ?_⟩
  · intro i h1 h2
    rw [hdst i, if_pos]
    simp only [initial]; omega
  · intro i hi
    rw [hdst i, if_neg]
    · rfl
    · simp only [initial]; omega
  · simpa [initial] using hsum

/-- C1 at `start = 0`, `len = 3 * 1048576 + 123`, a source with deterministic
content whose reads are full and a destination that stores every write. -/
theorem writeExtent_copies_extent_witness :
    ∃ r, writeExtent true patternDev fullReads fullWrites 0 (3 * 1048576 + 123) zeroDev 3145851
        = some r ∧ r.retval = 0 ∧
      (∀ i, 0 ≤ i → i < 0 + (3 * 1048576 + 123) → r.st.dst i = patternDev i) ∧
      (∀ i, ¬ (0 ≤ i ∧ i < 0 + (3 * 1048576 + 123)) → r.st.dst i = zeroDev i) ∧
      r.st.progress.sum = 3 * 1048576 + 123 :=
  writeExtent_copies_extent patternDev fullReads fullWrites 0 (3 * 1048576 + 123) zeroDev 3145851
    fullReads_succeed fullWrites_storesAll (by decide) (by decide) (by decide) (by decide)

/-- C2: for every extent and every `k`, if the first `k` reads that `writeExtent`
issues succeed (returning the byte counts `ns`, `k = ns.length`) and the read
number `k + 1` returns `-1`, then `writeExtent` returns `-1` (within `k + 1`
iterations); the failing read is the last call it makes, and it has issued
exactly `k` writes and `k` progress callbacks, one per chunk read; each write
carries the source bytes found at its offset; every destination byte outside the
`k` chunks written is unchanged whatever the writes do, and when the writes store
what they are given the bytes of the `k` chunks equal the source bytes (nothing
is rolled back).  For an extent in the range of `off_t` (`-2 ^ 63 ≤ start`,
`start + len ≤ 2 ^ 63 - 1`) the chunks are the bytes from `start` up to the offset
of the failing read, `start` plus the bytes read so far, and every write lies
below that offset. -/
theorem writeExtent_read_failure (src : Dev) (rd : ReadOracle) (wr : WriteOracle)
    (start len : Int) (dst : Dev) (ns : List Nat) (fuel : Nat)
    (h : ReadsThenFail rd start len 0 0 ns) (hfuel : ns.length < fuel) :
    ∃ r, writeExtent true src rd wr start len dst fuel = some r ∧ r.retval = -1 ∧
      r.st.progress = ns.map (fun n => (n : Int)) ∧
      r.st.writes = chunks src start 0 ns ∧
      r.st.writes.length = ns.length ∧
      r.st.reads.length = ns.length + 1 ∧
      r.st.reads.getLast? = some
        { total := ((ns.sum : Nat) : Int)
          amt := MIN bufSize (len - ((ns.sum : Nat) : Int))
          off := offsetAt start ((ns.sum : Nat) : Int)
          res := none } ∧
      (∀ w ∈ r.st.writes, w.2 = readBytes src w.1 w.2.length) ∧
      (∀ i, ¬ Covered r.st.writes i → r.st.dst i = dst i) ∧
      (StoresAll wr → ∀ i, Covered r.st.writes i → r.st.dst i = src i) ∧
      (-2 ^ 63 ≤ start → start + len ≤ 2 ^ 63 - 1 →
        offsetAt start ((ns.sum : Nat) : Int) = start + ((ns.sum : Nat) : Int) ∧
        (∀ w ∈ r.st.writes, start ≤ w.1 ∧
          w.1 + (w.2.length : Int) ≤ start + ((ns.sum : Nat) : Int)) ∧
        (∀ i, ¬ (start ≤ i ∧ i < start + ((ns.sum : Nat) : Int)) → r.st.dst i = dst i) ∧
        (StoresAll wr → ∀ i, start ≤ i → i < start + ((ns.sum : Nat) : Int) →
          r.st.dst i = src i)) := by
  obtain ⟨r, hr, hret, ht, hp, hw, hrl, hlast, hout, hin⟩ :=
    loop_reads_then_fail src rd wr start len ns (initial dst) fuel
      (by simpa [initial] using h) hfuel
  have hw2 : r.st.writes = chunks src start 0 ns := by simpa [initial] using hw
  have ht2 : r.st.total = ((ns.sum : Nat) : Int) := by simpa [initial] using ht
  have hout2 : ∀ i, ¬ Covered r.st.writes i → r.st.dst i = dst i := by
    intro i hi
    rw [hw2] at hi
    exact hout i hi
  have hin2 : StoresAll wr → ∀ i, Covered r.st.writes i → r.st.dst i = src i := by
    intro hwr i hi
    rw [hw2] at hi
    exact hin hwr i hi
  have hsum := ReadsThenFail_sum_lt rd start len ns 0 0 h
  refine ⟨r, by simpa [writeExtent] using hr, hret, by simpa [initial] using hp, hw2, ?_,
    by simpa [initial] using hrl, ?_, ?_, hout2, hin2, ?_⟩
  · rw [hw2, chunks_length]
  · rw [hlast]; simp only [readCall, ht2]
  · rw [hw2]; exact chunks_data src start 0 ns
  · intro hlo hhi
    have hb := chunks_bounds src start 0 ns (by omega) (le_refl _) (by omega)
    have hc := chunks_cover src start 0 ns (by omega) (le_refl _) (by omega)
    simp only [add_zero] at hb hc
    refine ⟨offsetAt_eq (by omega) (by omega), ?_, ?_, ?_⟩
    · rw [hw2]; exact hb
    · intro i hi
      exact hout2 i (by rw [hw2, hc i]; exact hi)
    · intro hwr i h1 h2
      exact hin2 hwr i (by rw [hw2, hc i]; exact ⟨h1, h2⟩)

/-- C2 at the extent `start = 0`, `len = 3 * 1048576 + 123` with a source whose
third read fails: two chunks of 1 MiB are read before the failure. -/
theorem writeExtent_read_failure_witness :
    ∃ r, writeExtent true patternDev (failsAt 2) fullWrites 0 (3 * 1048576 + 123) zeroDev 3
        = some r ∧ r.retval = -1 ∧
      r.st.progress = [1048576, 1048576] ∧
      r.st.writes.length = 2 ∧
      r.st.reads.length = 3 ∧
      (∀ w ∈ r.st.writes, w.2 = readBytes patternDev w.1 w.2.length) ∧
      (∀ w ∈ r.st.writes, 0 ≤ w.1 ∧ w.1 + (w.2.length : Int) ≤ 2097152) ∧
      (∀ i, ¬ (0 ≤ i ∧ i < 2097152) → r.st.dst i = zeroDev i) ∧
      (∀ i, 0 ≤ i → i < 2097152 → r.st.dst i = patternDev i) := by
  obtain ⟨r, hr, hret, hp, _, hwl, hrl, _, hdata, _, _, hexact⟩ :=
    writeExtent_read_failure patternDev (failsAt 2) fullWrites 0 (3 * 1048576 + 123) zeroDev
      [1048576, 1048576] 3 (by decide) (by decide)
  obtain ⟨_, hb, hout, hin⟩ := hexact (by decide) (by decide)
  refine ⟨r, hr, hret, by simpa using hp, by simpa using hwl, by simpa using hrl, hdata, ?_, ?_, ?_⟩
  · intro w hw
    simpa using hb w hw
  · intro i hi
    exact hout i (by simpa using hi)
  · intro i h1 h2
    exact hin fullWrites_storesAll i (by simpa using h1) (by simpa using h2)

/-- C9: `writeExtent` does not inspect what the destination writes return.  Two
runs with the same allocation outcome, source, read results, `start` and `len`
return the same value and pass the same values to the progress callback whatever
the results `wr1`, `wr2` of their writes (success, short write or failure) and the
destination contents are, and they take the same number of iterations.  In
particular the run in which every write fails returns what any other run returns
and reports the same progress, while it leaves the destination as it was; so,
when the buffer is allocated and the reads succeed as in C1, it returns `0` and
reports `len` bytes of progress. -/
theorem writeExtent_ignores_write_results (bufferOk : Bool) (src : Dev) (rd : ReadOracle)
    (wr1 wr2 : WriteOracle) (start len : Int) (dst1 dst2 : Dev) (fuel : Nat) :
    ((writeExtent bufferOk src rd wr1 start len dst1 fuel).map
        (fun r => (r.retval, r.st.progress))
      = (writeExtent bufferOk src rd wr2 start len dst2 fuel).map
        (fun r => (r.retval, r.st.progress))) ∧
    (∀ r, writeExtent bufferOk src rd wr1 start len dst1 fuel = some r →
      ∃ r2, writeExtent bufferOk src rd failingWrites start len dst1 fuel = some r2 ∧
        r2.retval = r.retval ∧ r2.st.progress = r.st.progress ∧ r2.st.dst = dst1) ∧
    (ReadsSucceed rd → 0 ≤ len → len.toNat ≤ fuel →
      ∃ r, writeExtent true src rd failingWrites start len dst1 fuel = some r ∧
        r.retval = 0 ∧ r.st.progress.sum = len ∧ r.st.dst = dst1) := by
  have hind : ∀ (w1 w2 : WriteOracle) (d1 d2 : Dev),
      (loop src rd w1 start len fuel (initial d1)).map observed
        = (loop src rd w2 start len fuel (initial d2)).map observed :=
    fun w1 w2 d1 d2 =>
      loop_write_independent src rd start len w1 w2 fuel (initial d1) (initial d2) rfl rfl rfl rfl
  have hfail : ∀ (w : WriteOracle) (r : ExtentResult),
      loop src rd w start len fuel (initial dst1) = some r →
      ∃ r2, loop src rd failingWrites start len fuel (initial dst1) = some r2 ∧
        r2.retval = r.retval ∧ r2.st.progress = r.st.progress ∧ r2.st.dst = dst1 := by
    intro w r hr
    have h := hind failingWrites w dst1 dst1
    rw [hr] at h
    cases hr2 : loop src rd failingWrites start len fuel (initial dst1) with
    | none => rw [hr2] at h; simp at h
    | some r2 =>
      rw [hr2] at h
      simp only [Option.map_some', Option.some.injEq, observed, Prod.mk.injEq] at h
      exact ⟨r2, rfl, h.1, h.2.2.2.2,
        loop_failingWrites_dst src rd start len fuel (initial dst1) r2 hr2⟩
  refine ⟨?_, ?_, ?_⟩
  · cases bufferOk with
    | false => simp [writeExtent, initial]
    | true =>
      have h := congrArg (Option.map (fun o : Int × Int × List ReadCall ×
        List (Int × List Byte) × List Int => (o.1, o.2.2.2.2))) (hind wr1 wr2 dst1 dst2)
      simpa [writeExtent, Option.map_map, Function.comp_def, observed] using h
  · intro r hr
    cases bufferOk with
    | false =>
      simp only [writeExtent, Bool.false_eq_true, if_false, Option.some.injEq] at hr
      subst hr
      exact ⟨{ retval := -1, st := initial dst1 }, rfl, rfl, rfl, rfl⟩
    | true =>
      obtain ⟨r2, hr2, h1, h2, h3⟩ := hfail wr1 r (by simpa [writeExtent] using hr)
      exact ⟨r2, by simpa [writeExtent] using hr2, h1, h2, h3⟩
  · intro hrd hlen hfuel
    obtain ⟨r0, hr0, hret0, _, hsum0⟩ :=
      loop_finishes src rd fullWrites start len hrd fuel (initial dst1)
        (by simpa [initial] using hlen) (by simpa [initial] using hfuel)
    obtain ⟨r2, hr2, h1, h2, h3⟩ := hfail fullWrites r0 hr0
    refine ⟨r2, by simpa [writeExtent] using hr2, by rw [h1, hret0], ?_, h3⟩
    rw [h2, hsum0]; simp [initial]

/-- C9 at `start = 0`, `len = 3 * 1048576 + 123`: a destination that stores
everything against one that stores the first byte of each write only, and the run
in which every write fails. -/
theorem writeExtent_ignores_write_results_witness :
    ((writeExtent true patternDev fullReads fullWrites 0 (3 * 1048576 + 123) zeroDev 3145851).map
        (fun r => (r.retval, r.st.progress))
      = (writeExtent true patternDev fullReads shortWrites 0 (3 * 1048576 + 123) patternDev
          3145851).map (fun r => (r.retval, r.st.progress))) ∧
    ∃ r, writeExtent true patternDev fullReads failingWrites 0 (3 * 1048576 + 123) zeroDev 3145851
        = some r ∧ r.retval = 0 ∧ r.st.progress.sum = 3 * 1048576 + 123 ∧ r.st.dst = zeroDev :=
  ⟨(writeExtent_ignores_write_results true patternDev fullReads fullWrites shortWrites 0
      (3 * 1048576 + 123) zeroDev patternDev 3145851).1,
   (writeExtent_ignores_write_results true patternDev fullReads fullWrites shortWrites 0
      (3 * 1048576 + 123) zeroDev patternDev 3145851).2.2 fullReads_succeed (by decide)
      (by decide)⟩

/-- C10, as stated, fails in two cases.  For `len = -1` no iteration runs and
`total` stays `0`, which is not `≤ len`.  For `start = 2 ^ 63 - 2`, `len = 4` and
reads of one byte, the third and fourth reads (`total = 2` and `3`) are issued at
the offsets `-2 ^ 63` and `-2 ^ 63 + 1`, not at `start + total`. -/
theorem writeExtent_loop_bounds_fail :
    (writeExtent true patternDev fullReads fullWrites 0 (-1) zeroDev 0).map
        (fun r => (r.st.total, decide (r.st.total ≤ -1))) = some (0, false) ∧
    (writeExtent true patternDev oneByteReads fullWrites (2 ^ 63 - 2) 4 zeroDev 4).map
        (fun r => r.st.reads.map (fun c => (c.total, c.off, decide (c.off = 2 ^ 63 - 2 + c.total))))
      = some [(0, 2 ^ 63 - 2, true), (1, 2 ^ 63 - 1, true), (2, -2 ^ 63, false),
          (3, -2 ^ 63 + 1, false)] := by
  decide

/-- C10, amended: every read that the loop of `writeExtent` issues asks for
`min(1048576, len - total)` bytes at the `off_t` offset `start + total`, which is
the exact sum when the extent lies in the range of `off_t` (`-2 ^ 63 ≤ start`,
`start + len ≤ 2 ^ 63 - 1`); every iteration starts with `0 ≤ total < len` and,
the read returning at most what it was asked for, ends with `0 ≤ total ≤ len`; at
the end `0 ≤ total ≤ max(len, 0)`.  When every read fails or returns at least one
byte, `writeExtent` returns within `len` iterations, having issued at most `len`
reads; when `len ≤ 0` it issues no read, no write and no callback.  A read that
returns zero bytes leaves `total` and the next read request unchanged, and while
the source keeps returning zero bytes the loop never ends. -/
theorem writeExtent_loop_bounds (bufferOk : Bool) (src : Dev) (rd : ReadOracle)
    (wr : WriteOracle) (start len : Int) (dst : Dev) :
    (∀ fuel r, writeExtent bufferOk src rd wr start len dst fuel = some r →
      (∀ c ∈ r.st.reads, (c.amt : Int) = min 1048576 (len - c.total) ∧
          c.off = offsetAt start c.total ∧ 0 ≤ c.total ∧ c.total < len) ∧ 0 ≤ r.st.total) ∧
    (-2 ^ 63 ≤ start → start + len ≤ 2 ^ 63 - 1 →
      ∀ fuel r, writeExtent bufferOk src rd wr start len dst fuel = some r →
        ∀ c ∈ r.st.reads, c.off = start + c.total) ∧
    (PreadContract rd → ∀ fuel r, writeExtent bufferOk src rd wr start len dst fuel = some r →
      (∀ c ∈ r.st.reads, ∀ n, c.res = some n → c.total + (n : Int) ≤ len) ∧
        r.st.total ≤ max len 0 ∧ (0 ≤ len → r.st.total ≤ len)) ∧
    (ReadsProgress rd → ∀ fuel, len.toNat ≤ fuel →
      ∃ r, writeExtent bufferOk src rd wr start len dst fuel = some r ∧
        r.st.reads.length ≤ len.toNat) ∧
    (len ≤ 0 → ∀ fuel, ∃ r, writeExtent bufferOk src rd wr start len dst fuel = some r ∧
      r.st.reads = [] ∧ r.st.writes = [] ∧ r.st.progress = []) ∧
    (∀ (st : LoopState) (res : Option Nat),
      (chunk src wr start len st 0).total = st.total ∧
      (readCall start len (chunk src wr start len st 0) res).amt = (readCall start len st res).amt ∧
      (readCall start len (chunk src wr start len st 0) res).off
        = (readCall start len st res).off) ∧
    (0 < len → (∀ k, rd k (MIN bufSize len) (offsetAt start 0) = some 0) →
      ∀ fuel, writeExtent true src rd wr start len dst fuel = none) ∧
    (∀ (st : LoopState) (n : Nat), 0 ≤ st.total → st.total < len →
      n ≤ MIN bufSize (len - st.total) →
      0 ≤ (chunk src wr start len st n).total ∧ (chunk src wr start len st n).total ≤ len) := by
  have hreq : ∀ fuel r, writeExtent bufferOk src rd wr start len dst fuel = some r →
      (∀ c ∈ r.st.reads, (c.amt : Int) = min 1048576 (len - c.total) ∧
          c.off = offsetAt start c.total ∧ 0 ≤ c.total ∧ c.total < len) ∧ 0 ≤ r.st.total := by
    intro fuel r hr
    cases bufferOk with
    | false =>
      simp only [writeExtent, Bool.false_eq_true, if_false, Option.some.injEq] at hr
      subst hr
      simp [initial]
    | true =>
      exact loop_requests src rd wr start len fuel (initial dst) r
        (by simp [initial]) (by simp [initial]) (by simpa [writeExtent] using hr)
  refine ⟨hreq, ?_, ?_, ?_, ?_, ?_, ?_, ?_⟩
  · intro hlo hhi fuel r hr c hc
    obtain ⟨_, hoff, h0, hlt⟩ := (hreq fuel r hr).1 c hc
    rw [hoff]
    exact offsetAt_eq (by omega) (by omega)
  · intro hc fuel r hr
    cases bufferOk with
    | false =>
      simp only [writeExtent, Bool.false_eq_true, if_false, Option.some.injEq] at hr
      subst hr
      simp [initial]
    | true =>
      have h := loop_reads_wellformed src rd wr start len hc fuel (initial dst) r
        (by simp [initial]) (by simp [initial]) (by simp [initial])
        (by simpa [writeExtent] using hr)
      refine ⟨fun c hcm => (h.1 c hcm).2, h.2.2, ?_⟩
      intro hlen
      have := h.2.2
      rw [max_eq_left hlen] at this
      exact this
  · intro hp fuel hfuel
    cases bufferOk with
    | false => exact ⟨{ retval := -1, st := initial dst }, rfl, by simp [initial]⟩
    | true =>
      obtain ⟨r, hr, hle⟩ := loop_terminates src rd wr start len hp fuel (initial dst)
        (by simpa [initial] using hfuel)
      exact ⟨r, by simpa [writeExtent] using hr, by simpa [initial] using hle⟩
  · intro hlen fuel
    cases bufferOk with
    | false => exact ⟨{ retval := -1, st := initial dst }, rfl, rfl, rfl, rfl⟩
    | true =>
      refine ⟨{ retval := 0, st := initial dst }, ?_, rfl, rfl, rfl⟩
      simp only [writeExtent, if_true]
      exact loop_done src rd wr start len fuel (initial dst) (by simp only [initial]; omega)
  · intro st res
    exact chunk_zero src wr start len st res
  · intro hlen hz fuel
    simp only [writeExtent, if_true]
    exact loop_stuck src rd wr start len fuel (initial dst) (by simpa [initial] using hlen)
      (by simpa [initial] using hz)
  · intro st n h0 hlt hn
    have hmin := MIN_le (b := len - st.total) (by omega)
    simp only [chunk]
    omega

/-- C10 at `start = 0`, `len = 3 * 1048576 + 123` with a source whose reads are
full, and with one whose reads return zero bytes. -/
theorem writeExtent_loop_bounds_witness :
    (∀ fuel r, writeExtent true patternDev fullReads fullWrites 0 (3 * 1048576 + 123) zeroDev fuel
        = some r → ∀ c ∈ r.st.reads, c.off = 0 + c.total) ∧
    (∀ fuel r, writeExtent true patternDev fullReads fullWrites 0 (3 * 1048576 + 123) zeroDev fuel
        = some r →
      (∀ c ∈ r.st.reads, ∀ n, c.res = some n → c.total + (n : Int) ≤ 3 * 1048576 + 123) ∧
        r.st.total ≤ max (3 * 1048576 + 123) 0 ∧
        ((0 : Int) ≤ 3 * 1048576 + 123 → r.st.total ≤ 3 * 1048576 + 123)) ∧
    (∀ fuel, (3 * 1048576 + 123 : Int).toNat ≤ fuel →
      ∃ r, writeExtent true patternDev fullReads fullWrites 0 (3 * 1048576 + 123) zeroDev fuel
          = some r ∧ r.st.reads.length ≤ (3 * 1048576 + 123 : Int).toNat) ∧
    (∀ fuel, ∃ r, writeExtent true patternDev fullReads fullWrites 0 0 zeroDev fuel = some r ∧
      r.st.reads = [] ∧ r.st.writes = [] ∧ r.st.progress = []) ∧
    (∀ fuel, writeExtent true patternDev emptyReads fullWrites 0 (3 * 1048576 + 123) zeroDev fuel
      = none) :=
  ⟨(writeExtent_loop_bounds true patternDev fullReads fullWrites 0 (3 * 1048576 + 123)
      zeroDev).2.1 (by decide) (by decide),
   (writeExtent_loop_bounds true patternDev fullReads fullWrites 0 (3 * 1048576 + 123)
      zeroDev).2.2.1 fullReads_contract,
   (writeExtent_loop_bounds true patternDev fullReads fullWrites 0 (3 * 1048576 + 123)
      zeroDev).2.2.2.1 fullReads_progress,
   (writeExtent_loop_bounds true patternDev fullReads fullWrites 0 0 zeroDev).2.2.2.2.1
      (by decide),
   (writeExtent_loop_bounds true patternDev emptyReads fullWrites 0 (3 * 1048576 + 123)
      zeroDev).2.2.2.2.2.2.1 (by decide) (fun _ => rfl)⟩

/-! ## `InitDeviceWrapper`: path resolution -/

theorem Char_toNat_sub_eq_zero (a b : Char) : (a.toNat : Int) - (b.toNat : Int) = 0 ↔ a = b := by
  constructor
  · intro h
    have h2 : a.toNat = b.toNat := by omega
    have := congrArg Char.ofNat h2
    simpa [Char.ofNat_toNat] using this
  · rintro rfl; omega

/-- For a string `lit` of `n` characters, `strncmp(p, lit, n) == 0` says that `p`
begins with `lit`. -/
theorem strncmp_eq_zero_iff (lit : List Char) (hnul : ∀ c ∈ lit, c ≠ NUL) :
    ∀ p : List Char, strncmp p lit lit.length = 0 ↔ p.take lit.length = lit := by
  induction lit with
  | nil => intro p; simp [strncmp]
  | cons c cs ih =>
    intro p
    have hc : c ≠ NUL := hnul c (List.mem_cons_self _ _)
    have ih2 := ih (fun d hd => hnul d (List.mem_cons_of_mem _ hd))
    cases p with
    | nil =>
      simp only [List.length_cons, strncmp, List.headD_nil, List.headD_cons, List.take_nil]
      rw [if_pos (Ne.symm hc)]
      simp [Char_toNat_sub_eq_zero, Ne.symm hc]
    | cons a as =>
      simp only [List.length_cons, strncmp, List.headD_cons, List.tail_cons, List.take_succ_cons,
        List.cons.injEq]
      by_cases hac : a = c
      · subst hac
        simp [hc, ih2 as]
      · simp [hac, Char_toNat_sub_eq_zero]

theorem rawname_eq (p : List Char) :
    rawname p = if p.take 9 = "/dev/disk".toList then "/dev/rdisk".toList ++ p.drop 9 else p := by
  have h := strncmp_eq_zero_iff "/dev/disk".toList (by decide) p
  have h9 : "/dev/disk".toList.length = 9 := by decide
  rw [h9] at h
  unfold rawname
  by_cases hp : p.take 9 = "/dev/disk".toList
  · rw [if_pos (h.mpr hp), if_pos hp]
  · rw [if_neg (fun hz => hp (h.mp hz)), if_neg hp]

theorem rawname_length (p : List Char) : (rawname p).length ≤ p.length + 1 := by
  rw [rawname_eq]
  split
  · rename_i h
    have hl := congrArg List.length h
    have h9 : "/dev/disk".toList.length = 9 := by decide
    have h10 : "/dev/rdisk".toList.length = 10 := by decide
    rw [List.length_take, h9] at hl
    rw [List.length_append, List.length_drop, h10]
    omega
  · omega

/-- C4: for every path `p`, if `p` begins with the 9 characters `/dev/disk` the
resolved raw path is `/dev/rdisk` followed by what comes after these 9 characters
(`/dev/disk5` gives `/dev/rdisk5`), and otherwise it is `p` itself; in both cases
it has at most `length p + 1` characters, so that it fits with its terminator in
the `length p + 2` bytes of the array `rawname`. -/
theorem rawname_resolves (p : List Char) :
    rawname p = (if p.take 9 = "/dev/disk".toList then "/dev/rdisk".toList ++ p.drop 9 else p) ∧
      rawname "/dev/disk5".toList = "/dev/rdisk5".toList ∧
      (rawname p).length ≤ p.length + 1 ∧
      (rawname p).length + 1 ≤ rawnameSize p :=
  ⟨rawname_eq p, by decide, rawname_length p, by
    have := rawname_length p
    unfold rawnameSize
    omega⟩

/-! ## `InitDeviceWrapper`: validation -/

theorem toOffT_of_lt {u : Nat} (h : u < 2 ^ 63) : toOffT u = (u : Int) := by
  unfold toOffT
  have h1 : u % 2 ^ 64 = u := Nat.mod_eq_of_lt (by omega)
  rw [h1, if_pos h]

/-- As long as the product of block size and block count is below `2 ^ 63`, the
size that `InitDeviceWrapper` compares is this product. -/
theorem devSizeOf_of_lt {blockSize blockCount : Nat} (h : blockSize * blockCount < 2 ^ 63) :
    devSizeOf blockSize blockCount = ((blockSize * blockCount : Nat) : Int) := by
  unfold devSizeOf
  rcases Nat.eq_zero_or_pos blockSize with hz | hs
  · subst hz; simp [toOffT]
  rcases Nat.eq_zero_or_pos blockCount with hz | hc
  · subst hz; simp [toOffT]
  have h1 : blockSize < 2 ^ 64 := by
    have : blockSize * 1 ≤ blockSize * blockCount := Nat.mul_le_mul_left _ hc
    omega
  have h2 : blockCount < 2 ^ 64 := by
    have : 1 * blockCount ≤ blockSize * blockCount := Nat.mul_le_mul_right _ hs
    omega
  rw [Nat.mod_eq_of_lt h1, Nat.mod_eq_of_lt h2, Nat.mod_eq_of_lt (by omega), toOffT_of_lt h]

/-- The size check of `InitDeviceWrapper`: a wrapper is returned only when the
size computed from the geometry equals the size of the source. -/
theorem InitDeviceWrapper_size_check (host : Host) (path : List Char) (size : Int)
    (w : IOWrapper) (h : (InitDeviceWrapper host path size).retval = some w) :
    ∃ fd blockCount, host.openRW (rawname path) = some fd ∧
      host.getBlockCount (fd : Int) = some blockCount ∧
      devSizeOf (blockSizeUsed host (fd : Int)) blockCount = size ∧
      w.context.devSize = size ∧ w.context.blockSize = blockSizeUsed host (fd : Int) ∧
      w.context.fd = (fd : Int) ∧ w.context.pathname = some (rawname path) ∧
      (∃ m, host.lstat (rawname path) = some m ∧ m &&& S_IFMT = S_IFCHR) ∧
      host.strdupOk = true ∧ host.mallocContextOk = true ∧ host.mallocWrapperOk = true := by
  rcases h1 : host.lstat (rawname path) with _ | m
  · simp [InitDeviceWrapper, done, h1] at h
  by_cases h2 : m &&& S_IFMT = S_IFCHR
  swap
  · simp [InitDeviceWrapper, done, h1, h2] at h
  rcases h3 : host.openRW (rawname path) with _ | fd
  · simp [InitDeviceWrapper, done, h1, h2, h3] at h
  rcases h4 : host.getBlockCount (fd : Int) with _ | bc
  · simp [InitDeviceWrapper, done, h1, h2, h3, h4] at h
  by_cases h5 : devSizeOf (blockSizeUsed host (fd : Int)) bc = size
  swap
  · simp [InitDeviceWrapper, done, h1, h2, h3, h4, h5] at h
  cases h6 : host.strdupOk
  · simp [InitDeviceWrapper, done, h1, h2, h3, h4, h5, h6] at h
  cases h7 : host.mallocContextOk
  · simp [InitDeviceWrapper, done, h1, h2, h3, h4, h5, h6, h7] at h
  cases h8 : host.mallocWrapperOk
  · simp [InitDeviceWrapper, done, h1, h2, h3, h4, h5, h6, h7, h8] at h
  simp [InitDeviceWrapper, done, h1, h2, h3, h4, h5, h6, h7, h8] at h
  subst h
  exact ⟨fd, bc, rfl, h4, h5, rfl, rfl, rfl, rfl, ⟨m, rfl, h2⟩, rfl, rfl, rfl⟩

/-- C3 on the code: a destination of `2 ^ 55 + 1` blocks of 512 bytes has
`2 ^ 64 + 512` bytes, which differs from a source size of 512 bytes, yet
`InitDeviceWrapper` returns a wrapper, whose recorded device size is 512: the
64-bit product `ctx.blockSize * blockCount` has wrapped around. -/
theorem InitDeviceWrapper_size_wraps :
    ((512 * (2 ^ 55 + 1) : Nat) : Int) ≠ 512 ∧
      (InitDeviceWrapper (charDeviceHost 512 (2 ^ 55 + 1)) "/dev/disk5".toList 512).retval.map
        (fun w => (w.context.blockSize, w.context.devSize)) = some (512, 512) := by
  decide

/-- C5: for every path and every host, if `lstat` of the resolved path fails, or
reports a file type other than `S_IFCHR`, `InitDeviceWrapper` returns a null
wrapper after the `lstat` alone: the device is never opened.  A block device node
(`S_IFBLK`) is such a type, so it is always rejected. -/
theorem InitDeviceWrapper_rejects_non_char (host : Host) (path : List Char) (size : Int) :
    ((host.lstat (rawname path) = none ∨
        ∃ m, host.lstat (rawname path) = some m ∧ m &&& S_IFMT ≠ S_IFCHR) →
      (InitDeviceWrapper host path size).retval = none ∧
        (InitDeviceWrapper host path size).log = [Event.lstat (rawname path)] ∧
        ∀ p fd, Event.openRW p fd ∉ (InitDeviceWrapper host path size).log) ∧
    (∀ m, host.lstat (rawname path) = some m → m &&& S_IFMT = S_IFBLK →
      (InitDeviceWrapper host path size).retval = none ∧
        (InitDeviceWrapper host path size).log = [Event.lstat (rawname path)] ∧
        ∀ p fd, Event.openRW p fd ∉ (InitDeviceWrapper host path size).log) := by
  have key : (host.lstat (rawname path) = none ∨
        ∃ m, host.lstat (rawname path) = some m ∧ m &&& S_IFMT ≠ S_IFCHR) →
      (InitDeviceWrapper host path size).retval = none ∧
        (InitDeviceWrapper host path size).log = [Event.lstat (rawname path)] ∧
        ∀ p fd, Event.openRW p fd ∉ (InitDeviceWrapper host path size).log := by
    rintro (h1 | ⟨m, h1, h2⟩)
    · simp [InitDeviceWrapper, done, h1]
    · simp [InitDeviceWrapper, done, h1, h2]
  refine ⟨key, ?_⟩
  intro m h1 h2
  refine key (Or.inr ⟨m, h1, ?_⟩)
  rw [h2]
  decide

/-- C5 on a host where the path names a block device node, and on one where
`lstat` fails. -/
theorem InitDeviceWrapper_rejects_non_char_witness :
    ((InitDeviceWrapper blockDeviceHost "/dev/disk5".toList 4096).retval = none ∧
      (InitDeviceWrapper blockDeviceHost "/dev/disk5".toList 4096).log
        = [Event.lstat (rawname "/dev/disk5".toList)] ∧
      ∀ p fd, Event.openRW p fd ∉ (InitDeviceWrapper blockDeviceHost "/dev/disk5".toList 4096).log) ∧
    ((InitDeviceWrapper { blockDeviceHost with lstat := fun _ => none } "/dev/disk5".toList
        4096).retval = none ∧
      (InitDeviceWrapper { blockDeviceHost with lstat := fun _ => none } "/dev/disk5".toList
        4096).log = [Event.lstat (rawname "/dev/disk5".toList)] ∧
      ∀ p fd, Event.openRW p fd ∉
        (InitDeviceWrapper { blockDeviceHost with lstat := fun _ => none } "/dev/disk5".toList
          4096).log) :=
  ⟨(InitDeviceWrapper_rejects_non_char blockDeviceHost "/dev/disk5".toList 4096).2 0o060640 rfl
      (by decide),
   (InitDeviceWrapper_rejects_non_char { blockDeviceHost with lstat := fun _ => none }
      "/dev/disk5".toList 4096).1 (Or.inl rfl)⟩

/-- C6: in `InitDeviceWrapper` a failing block-size query is not fatal: the
construction goes on exactly as if the query had reported 512, and a wrapper it
returns records the block size 512 and, as its device size, the product of 512
and the block count that `ctx.blockSize * blockCount` computes (`512 * blockCount`
itself as long as this is below `2 ^ 63`).  A failing block-count query is fatal:
the result is a null wrapper whatever the block size and the source size are. -/
theorem InitDeviceWrapper_geometry_queries (host : Host) (path : List Char) (size : Int) :
    (∀ fd w, host.openRW (rawname path) = some fd → host.getBlockSize (fd : Int) = none →
      (InitDeviceWrapper host path size).retval = some w →
      w.context.blockSize = 512 ∧
        ∃ blockCount, host.getBlockCount (fd : Int) = some blockCount ∧
          w.context.devSize = devSizeOf 512 blockCount ∧
          (512 * blockCount < 2 ^ 63 → w.context.devSize = 512 * (blockCount : Int))) ∧
    (∀ fd, host.openRW (rawname path) = some fd → host.getBlockCount (fd : Int) = none →
      (InitDeviceWrapper host path size).retval = none) ∧
    (∀ fd, host.openRW (rawname path) = some fd → host.getBlockSize (fd : Int) = none →
      InitDeviceWrapper host path size
        = InitDeviceWrapper { host with getBlockSize := fun _ => some 512 } path size) := by
  refine ⟨?_, ?_, ?_⟩
  · intro fd w hopen hbs hw
    obtain ⟨fd2, bc, h3, h4, h5, h6, h7, _⟩ := InitDeviceWrapper_size_check host path size w hw
    rw [hopen] at h3
    cases h3
    have hused : blockSizeUsed host (fd : Int) = 512 := by simp [blockSizeUsed, hbs]
    rw [hused] at h5 h7
    refine ⟨h7, bc, h4, by rw [h6, h5], ?_⟩
    intro hlt
    rw [h6, ← h5, devSizeOf_of_lt hlt]
    push_cast
    rfl
  · intro fd hopen hbc
    rcases h1 : host.lstat (rawname path) with _ | m
    · simp [InitDeviceWrapper, done, h1]
    by_cases h2 : m &&& S_IFMT = S_IFCHR
    · simp [InitDeviceWrapper, done, h1, h2, hopen, hbc]
    · simp [InitDeviceWrapper, done, h1, h2]
  · intro fd hopen hbs
    have hused : blockSizeUsed host (fd : Int) = 512 := by simp [blockSizeUsed, hbs]
    have hused2 : blockSizeUsed { host with getBlockSize := fun _ => some 512 } (fd : Int)
        = 512 := by
      simp [blockSizeUsed]
    simp only [InitDeviceWrapper, hopen, hused, hused2]

/-- C6 on a host whose block-size query fails: with 8 blocks and a source of
`512 * 8` bytes the wrapper is built with block size 512; and on a host whose
block-count query fails the result is null. -/
theorem InitDeviceWrapper_geometry_queries_witness :
    (∃ w, (InitDeviceWrapper (noBlockSizeHost 8) "/dev/disk5".toList 4096).retval = some w ∧
      w.context.blockSize = 512 ∧ w.context.devSize = 512 * 8) ∧
    (InitDeviceWrapper { charDeviceHost 512 8 with getBlockCount := fun _ => none }
      "/dev/disk5".toList 4096).retval = none ∧
    InitDeviceWrapper (noBlockSizeHost 8) "/dev/disk5".toList 4096
      = InitDeviceWrapper { noBlockSizeHost 8 with getBlockSize := fun _ => some 512 }
          "/dev/disk5".toList 4096 := by
  refine ⟨?_, ?_, ?_⟩
  · cases hw : (InitDeviceWrapper (noBlockSizeHost 8) "/dev/disk5".toList 4096).retval with
    | none => exact absurd hw (by decide)
    | some w =>
      obtain ⟨hbs, bc, hbc, _, hexact⟩ :=
        (InitDeviceWrapper_geometry_queries (noBlockSizeHost 8) "/dev/disk5".toList 4096).1
          3 w rfl rfl hw
      have hbc8 : bc = 8 := by
        have : (some 8 : Option Nat) = some bc := hbc
        exact (Option.some.inj this).symm
      subst hbc8
      exact ⟨w, rfl, hbs, hexact (by decide)⟩
  · exact (InitDeviceWrapper_geometry_queries
      { charDeviceHost 512 8 with getBlockCount := fun _ => none } "/dev/disk5".toList 4096).2.1
      3 rfl rfl
  · exact (InitDeviceWrapper_geometry_queries (noBlockSizeHost 8) "/dev/disk5".toList 4096).2.2
      3 rfl rfl

/-- C7: for every state of the wrapper and its device and every finite sequence
of `SetProgress` calls, a following `GetProgress` returns 0, and the state after
the calls is the state before them; `SetProgress` returns nothing, so it has no
failure result. -/
theorem GetProgress_after_SetProgress (s : WrapperState) (values : List Int) :
    GetProgress (values.foldl SetProgress s) = 0 ∧ values.foldl SetProgress s = s ∧
      GetProgress s = 0 ∧ ∀ v, SetProgress s v = s := by
  refine ⟨rfl, ?_, rfl, fun _ => rfl⟩
  induction values with
  | nil => rfl
  | cons v vs ih => simpa [List.foldl, SetProgress] using ih

/-! ## `InitDeviceWrapper`: release of resources -/

theorem InitDeviceWrapper_released_or_kept (host : Host) (path : List Char) (size : Int) :
    ((InitDeviceWrapper host path size).retval = none →
      Released (rawname path) (InitDeviceWrapper host path size).log) ∧
    ((InitDeviceWrapper host path size).retval ≠ none →
      Kept (rawname path) (InitDeviceWrapper host path size).log) := by
  rcases h1 : host.lstat (rawname path) with _ | m
  · simp [InitDeviceWrapper, done, h1, Released]
  by_cases h2 : m &&& S_IFMT = S_IFCHR
  swap
  · simp [InitDeviceWrapper, done, h1, h2, Released]
  rcases h3 : host.openRW (rawname path) with _ | fd
  · simp [InitDeviceWrapper, done, h1, h2, h3, Released]
  rcases h4 : host.getBlockCount (fd : Int) with _ | bc
  · simp [InitDeviceWrapper, done, h1, h2, h3, h4, Released, List.count_cons]
    intro n; split <;> omega
  by_cases h5 : devSizeOf (blockSizeUsed host (fd : Int)) bc = size
  swap
  · simp [InitDeviceWrapper, done, h1, h2, h3, h4, h5, Released, List.count_cons]
    intro n; split <;> omega
  cases h6 : host.strdupOk
  · simp [InitDeviceWrapper, done, h1, h2, h3, h4, h5, h6, Released, List.count_cons]
    intro n; split <;> omega
  cases h7 : host.mallocContextOk
  · simp [InitDeviceWrapper, done, h1, h2, h3, h4, h5, h6, h7, Released, List.count_cons]
    intro n; split <;> omega
  cases h8 : host.mallocWrapperOk
  · simp [InitDeviceWrapper, done, h1, h2, h3, h4, h5, h6, h7, h8, Released, List.count_cons]
    intro n; split <;> omega
  simp [InitDeviceWrapper, done, h1, h2, h3, h4, h5, h6, h7, h8, Kept, List.count_cons]
  intro m
  cases m <;> simp

theorem InitDeviceWrapper_null_cause (host : Host) (path : List Char) (size : Int) :
    (InitDeviceWrapper host path size).retval = none ↔ Fails host path size := by
  constructor
  · intro h
    unfold Fails
    rcases h1 : host.lstat (rawname path) with _ | m
    · exact Or.inl rfl
    by_cases h2 : m &&& S_IFMT = S_IFCHR
    swap
    · exact Or.inr (Or.inl ⟨m, rfl, h2⟩)
    rcases h3 : host.openRW (rawname path) with _ | fd
    · exact Or.inr (Or.inr (Or.inl rfl))
    rcases h4 : host.getBlockCount (fd : Int) with _ | bc
    · exact Or.inr (Or.inr (Or.inr (Or.inl ⟨fd, rfl, h4⟩)))
    by_cases h5 : devSizeOf (blockSizeUsed host (fd : Int)) bc = size
    swap
    · exact Or.inr (Or.inr (Or.inr (Or.inr (Or.inl ⟨fd, bc, rfl, h4, h5⟩))))
    cases h6 : host.strdupOk
    · simp
    cases h7 : host.mallocContextOk
    · simp
    cases h8 : host.mallocWrapperOk
    · simp
    simp [InitDeviceWrapper, done, h1, h2, h3, h4, h5, h6, h7, h8] at h
  · intro h
    cases hr : (InitDeviceWrapper host path size).retval with
    | none => rfl
    | some w =>
      exfalso
      obtain ⟨fd, bc, h3, h4, h5, _, _, _, _, ⟨m, h1, h2⟩, h6, h7, h8⟩ :=
        InitDeviceWrapper_size_check host path size w hr
      rcases h with h | ⟨m2, h, hm⟩ | h | ⟨fd2, h, hc⟩ | ⟨fd2, bc2, h, hc, hs⟩ | h | h | h
      · rw [h1] at h; cases h
      · rw [h1] at h; cases h; exact hm h2
      · rw [h3] at h; cases h
      · rw [h3] at h; cases h; rw [h4] at hc; cases hc
      · rw [h3] at h; cases h; rw [h4] at hc; cases hc; exact hs h5
      · rw [h6] at h; cases h
      · rw [h7] at h; cases h
      · rw [h8] at h; cases h

/-- C8: `InitDeviceWrapper` returns a null wrapper exactly on its failing exits
(inspection failure, not a character device, open failure, block-count query
failure, size mismatch, failure of the path copy, of the context allocation or of
the wrapper allocation).  On each of them everything acquired so far is released:
a descriptor that was opened is closed exactly once (and nothing else is
closed), the path copy and the context are freed if they were allocated.  On
success nothing is closed or freed. -/
theorem InitDeviceWrapper_releases_on_failure (host : Host) (path : List Char) (size : Int) :
    ((InitDeviceWrapper host path size).retval = none ↔ Fails host path size) ∧
    (Fails host path size →
      (InitDeviceWrapper host path size).retval = none ∧
        Released (rawname path) (InitDeviceWrapper host path size).log) ∧
    (¬ Fails host path size →
      (InitDeviceWrapper host path size).retval ≠ none ∧
        Kept (rawname path) (InitDeviceWrapper host path size).log) := by
  have hiff := InitDeviceWrapper_null_cause host path size
  have hrk := InitDeviceWrapper_released_or_kept host path size
  refine ⟨hiff, ?_, ?_⟩
  · intro h
    exact ⟨hiff.mpr h, hrk.1 (hiff.mpr h)⟩
  · intro h
    have hne : (InitDeviceWrapper host path size).retval ≠ none := fun hn => h (hiff.mp hn)
    exact ⟨hne, hrk.2 hne⟩

/-- C8 on a host where the sizes differ (the descriptor is opened, then closed),
and on one where everything succeeds. -/
theorem InitDeviceWrapper_releases_on_failure_witness :
    ((InitDeviceWrapper (charDeviceHost 512 8) "/dev/disk5".toList 4097).retval = none ∧
      Released (rawname "/dev/disk5".toList)
        (InitDeviceWrapper (charDeviceHost 512 8) "/dev/disk5".toList 4097).log) ∧
    ((InitDeviceWrapper (charDeviceHost 512 8) "/dev/disk5".toList 4096).retval ≠ none ∧
      Kept (rawname "/dev/disk5".toList)
        (InitDeviceWrapper (charDeviceHost 512 8) "/dev/disk5".toList 4096).log) :=
  ⟨(InitDeviceWrapper_releases_on_failure (charDeviceHost 512 8) "/dev/disk5".toList 4097).2.1
      (Or.inr (Or.inr (Or.inr (Or.inr (Or.inl ⟨3, 8, rfl, rfl, by decide⟩))))),
   (InitDeviceWrapper_releases_on_failure (charDeviceHost 512 8) "/dev/disk5".toList 4096).2.2
      (by
        have h : (InitDeviceWrapper (charDeviceHost 512 8) "/dev/disk5".toList 4096).retval
            ≠ none := by decide
        exact fun hf =>
          h ((InitDeviceWrapper_null_cause (charDeviceHost 512 8) "/dev/disk5".toList 4096).mpr hf))⟩

end DeviceWrapper
